import Mathlib

/-
  Verification of the EconSearch metadata-extraction and retrieval core.

  The Python sources (ingest.py, search_engine.py, app.py) are embedded
  shallowly.  Strings are Lean `String`s, i.e. lists of unicode scalar
  `Char`s, which matches Python's code-point indexing and slicing.  Python
  `str.lower` / `str.upper` are modelled by the pointwise ASCII case maps
  `Char.toLower` / `Char.toUpper` (the sources only case-map ASCII text).
  Floating-point cosine-similarity scores are modelled by `ℚ`, and the
  float comparisons `ratio > 0.8` / `ratio > 0.85` on uppercase-letter
  ratios by the exact integer inequalities `10*u > 8*n` / `100*u > 85*n`.
  Fallible code returns `Except`/`Option`.
-/

namespace EconSearch

/-- Python whitespace (the set matched by `str.strip()`, `str.split()` and
`\s` on the ASCII plane): space, tab, newline, carriage return, vertical
tab (11) and form feed (12). -/
def pyIsSpace (c : Char) : Bool :=
  c = ' ' || c = '\t' || c = '\n' || c = '\r' || c.toNat = 11 || c.toNat = 12

/-- Model of Python `str.lower()` (ASCII case map, applied pointwise). -/
def lowerL (l : List Char) : List Char := l.map Char.toLower

/-- Model of Python `str.upper()` (ASCII case map, applied pointwise). -/
def upperL (l : List Char) : List Char := l.map Char.toUpper

/-- Drop the longest suffix whose characters satisfy `p`. -/
def dropWhileRight (p : Char → Bool) (l : List Char) : List Char :=
  (l.reverse.dropWhile p).reverse

/-- Python `str.strip()`: remove leading and trailing whitespace. -/
def pyStrip (l : List Char) : List Char :=
  dropWhileRight pyIsSpace (l.dropWhile pyIsSpace)

/-- Python `str.strip(chars)`: remove leading and trailing characters drawn
from the set `chars`. -/
def pyStripChars (chars : List Char) (l : List Char) : List Char :=
  dropWhileRight (chars.contains ·) (l.dropWhile (chars.contains ·))

/-- Python `str.split(sep)` for a one-character separator, keeping empty
pieces (also the behaviour of `re.split` over a one-character class). -/
def splitOnCharL (sep : Char) : List Char → List (List Char)
  | [] => [[]]
  | c :: cs =>
    match splitOnCharL sep cs with
    | [] => [[c]]
    | h :: t => if c = sep then [] :: h :: t else (c :: h) :: t

/-- Split on every character satisfying `p`, keeping empty pieces. -/
def splitOnPred (p : Char → Bool) : List Char → List (List Char)
  | [] => [[]]
  | c :: cs =>
    match splitOnPred p cs with
    | [] => [[c]]
    | h :: t => if p c then [] :: h :: t else (c :: h) :: t

/-- Python `str.split()` with no argument: split on whitespace runs and
drop the empty pieces. -/
def pySplit (l : List Char) : List (List Char) :=
  (splitOnPred pyIsSpace l).filter (· ≠ [])

/-- Python `sep.join(pieces)`. -/
def joinSep (sep : List Char) : List (List Char) → List Char
  | [] => []
  | [x] => x
  | x :: y :: rest => x ++ sep ++ joinSep sep (y :: rest)

/-- The maximal runs of whitespace / non-whitespace characters of a string.
On a stripped non-empty string this is exactly Python's
`re.split(r"(\s+)", text)` with the captured separators kept in place:
word, whitespace run, word, ..., word. -/
def groupRuns : List Char → List (List Char)
  | [] => []
  | c :: cs =>
    match groupRuns cs with
    | [] => [[c]]
    | [] :: gs => [c] :: [] :: gs
    | (d :: g) :: gs =>
      if pyIsSpace c = pyIsSpace d then (c :: d :: g) :: gs
      else [c] :: (d :: g) :: gs

/-- `pat` occurs at the start of `l`. -/
def startsWithL (l pat : List Char) : Bool := l.take pat.length = pat

/-- Python substring containment `pat in l`. -/
def containsSub : List Char → List Char → Bool
  | [], pat => startsWithL [] pat
  | c :: cs, pat => startsWithL (c :: cs) pat || containsSub cs pat

/-- `re.sub(r"\s+", " ", ·)`: collapse every whitespace run to one space. -/
def collapseWs (l : List Char) : List Char :=
  ((groupRuns l).map fun g => if g.any pyIsSpace then [' '] else g).foldr (· ++ ·) []

/-- `re.sub(r"\s{2,}", " ", ·)`: collapse every whitespace run of length at
least two to one space; a lone whitespace character is kept verbatim. -/
def collapse2Ws (l : List Char) : List Char :=
  ((groupRuns l).map fun g =>
    if g.any pyIsSpace && decide (2 ≤ g.length) then [' '] else g).foldr (· ++ ·) []

/-- Python `splitlines` yields no final empty piece for a trailing newline. -/
def dropLastIfEmpty (ls : List String) : List String :=
  match ls.getLast? with
  | some "" => ls.dropLast
  | _ => ls

/-- Python `str.splitlines()` restricted to `\n` separators (the only line
separator occurring in the texts the sources handle). -/
def splitLines (s : String) : List String :=
  dropLastIfEmpty ((splitOnCharL '\n' s.data).map String.mk)

/-- Python `str.isdigit()` (ASCII fragment): non-empty and all digits. -/
def pyIsDigit (l : List Char) : Bool := !l.isEmpty && l.all Char.isDigit

/-! ### ingest.py constant word sets -/

/-- ingest.py `HEADER_STOPWORDS`. -/
def HEADER_STOPWORDS : List String :=
  ["journal", "review", "volume", "vol", "issue", "no", "number", "issn",
   "doi", "copyright", "press", "association", "conference"]

/-- ingest.py `MONTH_NAMES`. -/
def MONTH_NAMES : List String :=
  ["january", "february", "march", "april", "may", "june", "july", "august",
   "september", "october", "november", "december"]

/-- ingest.py `AFFILIATION_KEYWORDS`. -/
def AFFILIATION_KEYWORDS : List String :=
  ["university", "college", "school", "department", "institute", "laboratory",
   "lab", "centre", "center", "academy", "research", "programme", "program"]

/-- ingest.py `JOURNAL_KEYWORDS`. -/
def JOURNAL_KEYWORDS : List String :=
  ["journal", "review", "quarterly", "economics", "finance", "studies",
   "letters", "magazine", "bulletin", "papers", "econometrica", "economic"]

/-- ingest.py `ACRONYM_WHITELIST`. -/
def ACRONYM_WHITELIST : List String :=
  ["gdp", "us", "usa", "uk", "eu", "oecd", "un", "esg", "iv", "irl", "cpi",
   "nber", "ceo", "roe", "roa", "epa", "sec"]

/-- ingest.py `ROMAN_NUMERALS`. -/
def ROMAN_NUMERALS : List String :=
  ["i", "ii", "iii", "iv", "v", "vi", "vii", "viii", "ix", "x"]

/-- ingest.py `SMALL_WORDS` (the same set appears in app.py). -/
def SMALL_WORDS : List String :=
  ["of", "and", "the", "in", "on", "for", "to", "a", "an", "at", "by",
   "with", "or", "from", "per"]

/-- ingest.py `SECTION_STOPWORDS`. -/
def SECTION_STOPWORDS : List String :=
  ["introduction", "background", "methods", "data", "results", "conclusion",
   "conclusions", "discussion", "literature review", "related literature",
   "model", "theory"]

/-- The footnote marker characters `*`, dagger, double dagger and section
sign (ingest.py `FOOTNOTE_PREFIXES`, also the character class
`[\*†‡§]` stripped from author text). -/
def FOOTNOTE_MARKS : List Char :=
  ['*', Char.ofNat 8224, Char.ofNat 8225, Char.ofNat 167]

/-! ### Text normalizer (ingest.py) -/

/-- The apostrophe character. -/
def apoChar : Char := Char.ofNat 39

/-- `base.replace("’", "'")` followed by replacing backquotes with
apostrophes, from `_normalize_token` (both replaced characters are single
code points, so the substring replace is pointwise). -/
def replaceApos (c : Char) : Char :=
  if c = Char.ofNat 8217 || c = Char.ofNat 96 then apoChar else c

/-- The non-hyphen branch of ingest.py `_normalize_token`: strip, normalize
quote characters, drop characters outside letters and apostrophes, render
whitelisted acronyms and Roman numerals fully upper-case, and otherwise
capitalize the first letter and lower the rest. -/
def normalize_token_base (token : List Char) : List Char :=
  let base := pyStrip token
  if base.isEmpty then []
  else
    let base := base.map replaceApos
    let core := base.filter fun c => c.isAlpha || c = apoChar
    if core.isEmpty then []
    else
      let lower := lowerL core
      if ACRONYM_WHITELIST.contains (String.mk lower)
          || ROMAN_NUMERALS.contains (String.mk lower) then upperL core
      else
        match core with
        | [c] => upperL [c]
        | c :: cs => Char.toUpper c :: lowerL cs
        | [] => []

/-- ingest.py `_normalize_token`.  The Python function recurses on the
hyphen-split parts of a hyphenated token; each part is hyphen-free, so the
recursive call reduces to `normalize_token_base`. -/
def normalize_token (token : List Char) : List Char :=
  let base := pyStrip token
  if base.isEmpty then []
  else
    let base := base.map replaceApos
    if base.contains '-' then
      joinSep ['-'] (((splitOnCharL '-' base).map normalize_token_base).filter (· ≠ []))
    else normalize_token_base token

/-- ingest.py `_normalize_author_name`: strip punctuation and footnote
markers, collapse repeated whitespace, normalize dash variants, then
token-normalize each word; `none` models Python `None` for empty results. -/
def normalize_author_name (name : List Char) : Option String :=
  let name := pyStripChars [' ', ',', ';'] name
  if name.isEmpty then none
  else
    let name := name.filter (!FOOTNOTE_MARKS.contains ·)
    let name := collapse2Ws name
    let name := name.map fun c =>
      if c = Char.ofNat 8211 || c = Char.ofNat 8212 then '-' else c
    let tokens := pySplit name
    let parts := (tokens.map normalize_token).filter (· ≠ [])
    let normalized := pyStripChars [' ', ',', ';'] (joinSep [' '] parts)
    if normalized.isEmpty then none else some (String.mk normalized)

/-- First character upper-cased, rest unchanged: Python
`lower[:1].upper() + lower[1:]`. -/
def capFirst : List Char → List Char
  | [] => []
  | c :: cs => Char.toUpper c :: cs

/-- One hyphen-separated part of one token of `_smart_title_case`: lower it
and capitalize its first letter unless it is a non-leading small word. -/
def titlePart (firstWord : Bool) (part : List Char) : List Char :=
  let lower := lowerL part
  if firstWord || !(SMALL_WORDS.contains (String.mk lower)) then capFirst lower
  else lower

/-- The inner loop of `_smart_title_case` over the hyphen-split parts of one
token; empty parts are skipped, and `first_word` is cleared after the first
processed part. -/
def titleParts (firstWord : Bool) : List (List Char) → List (List Char)
  | [] => []
  | p :: ps =>
    if p = [] then titleParts firstWord ps
    else titlePart firstWord p :: titleParts false ps

/-- One non-whitespace token of `_smart_title_case`: hyphen-split,
processed part-by-part, and re-joined with hyphens. -/
def titleWord (firstWord : Bool) (t : List Char) : List Char :=
  joinSep ['-'] (titleParts firstWord (splitOnCharL '-' t))

/-- The token loop of `_smart_title_case`: whitespace tokens are appended
unchanged, other tokens are hyphen-split, processed and re-joined with
hyphens; `first_word` is cleared after every non-whitespace token. -/
def titleTokens (firstWord : Bool) : List (List Char) → List Char
  | [] => []
  | t :: ts =>
    if t = [] then titleTokens firstWord ts
    else if t.all pyIsSpace then t ++ titleTokens firstWord ts
    else titleWord firstWord t ++ titleTokens false ts

/-- ingest.py `_smart_title_case` (identical in logic to app.py
`_format_title_case`): lower-case the stripped text and re-capitalize every
word except non-leading small words, hyphenated tokens part-by-part.  On
the stripped non-empty text, `re.split(r"(\s+)", text.lower())` is exactly
`groupRuns` of the lowered text. -/
def smart_title_case (s : String) : String :=
  let text := pyStrip s.data
  if text.isEmpty then String.mk text
  else String.mk (titleTokens true (groupRuns (lowerL text)))

/-! ### Layout-noise filter and metadata extractor (ingest.py) -/

/-- Number of letters of a line (`letters` in `_uppercase_ratio`). -/
def letterCount (l : List Char) : Nat := (l.filter (·.isAlpha)).length

/-- Number of upper-case letters of a line (the numerator of
`_uppercase_ratio`). -/
def upperCount (l : List Char) : Nat := (l.filter (·.isAlpha)).countP (·.isUpper)

/-- ingest.py `_is_noise_line`.  The float tests `_uppercase_ratio(line) >
0.8` are modelled by the exact inequality `10 * upper > 8 * letters`. -/
def is_noise_line (line : String) : Bool :=
  if line = "" then false
  else
    let l := line.data
    let lowered := lowerL l
    if match l.head? with | some c => FOOTNOTE_MARKS.contains c | none => false then true
    else if startsWithL lowered "doi".data || startsWithL lowered "http".data then true
    else if decide (l.length ≤ 3) && pyIsDigit l then true
    else if !l.isEmpty && l.all (fun c => c.isDigit || c = '-' || pyIsSpace c) then true
    else
      let tokens := (pySplit lowered).map (pyStripChars ['.', ',', ';', ':'])
      if tokens.isEmpty then false
      else if tokens.any (fun t => AFFILIATION_KEYWORDS.contains (String.mk t)) then true
      else
        let hasHeader := tokens.any fun t => HEADER_STOPWORDS.contains (String.mk t)
        let hasMonth := tokens.any fun t => MONTH_NAMES.contains (String.mk t)
        let hasDigits := tokens.any fun t => t.any (·.isDigit)
        if decide (10 * upperCount l > 8 * letterCount l) && (hasHeader || hasMonth || hasDigits) then
          true
        else hasHeader && hasMonth

/-- ingest.py `_prepare_preview_lines`: strip each preview line, keep blank
lines as block separators, and drop noise lines. -/
def prepare_preview_lines (preview : String) : List String :=
  (splitLines preview).filterMap fun raw =>
    let line := String.mk (pyStrip raw.data)
    if line = "" then some ""
    else if is_noise_line line then none
    else some line

/-- The accumulator loop of ingest.py `_split_blocks`. -/
def split_blocks_aux (current : List String) : List String → List (List String)
  | [] => if current.isEmpty then [] else [current]
  | l :: ls =>
    if l = "" then
      if current.isEmpty then split_blocks_aux [] ls
      else current :: split_blocks_aux [] ls
    else split_blocks_aux (current ++ [l]) ls

/-- ingest.py `_split_blocks`: group consecutive non-blank lines into
blocks separated by blank lines. -/
def split_blocks (lines : List String) : List (List String) := split_blocks_aux [] lines

/-- ASCII word characters for the regex word boundary (`[A-Za-z0-9_]`). -/
def isWordChar (c : Char) : Bool := c.isAlpha || c.isDigit || c = '_'

/-- `re.sub(r"\band\b", ",", text, flags=re.IGNORECASE)` from
`_parse_author_names`: replace every standalone word "and" (any case) with
a comma; `prev` is the character before the scan position. -/
def replaceWordAnd (prev : Option Char) : List Char → List Char
  | a :: n :: d :: rest =>
    if a.toLower = 'a' && n.toLower = 'n' && d.toLower = 'd'
        && !(match prev with | some p => isWordChar p | none => false)
        && !(match rest.head? with | some c => isWordChar c | none => false) then
      ',' :: replaceWordAnd (some 'd') rest
    else a :: replaceWordAnd (some a) (n :: d :: rest)
  | l => l

/-- ingest.py `_parse_author_names`: split candidate author text into
comma-separated fragments, discard fragments containing an affiliation
keyword, a digit, or more than seven words, then normalize and
de-duplicate preserving order. -/
def parse_author_names (text : String) : List String :=
  if text = "" then []
  else
    let cleaned := text.data.filter (!FOOTNOTE_MARKS.contains ·)
    let cleaned := collapse2Ws cleaned
    let cleaned := replaceWordAnd none cleaned
    let cleaned := cleaned.map fun c => if c = '&' then ',' else c
    let parts := ((splitOnCharL ',' cleaned).map (pyStripChars [' ', ',', ';'])).filter (· ≠ [])
    parts.foldl (fun authors part =>
      let lower := lowerL part
      if AFFILIATION_KEYWORDS.any (fun kw => containsSub lower kw.data) then authors
      else if part.any (·.isDigit) then authors
      else if decide ((pySplit part).length > 7) then authors
      else
        match normalize_author_name part with
        | some n => if authors.contains n then authors else authors ++ [n]
        | none => authors) []

/-- Lookup in the normalized PDF-metadata map (Python `meta.get(key)`);
`none` models an absent key or a `None` value. -/
def metaGet (meta : List (String × String)) (key : String) : Option String :=
  match meta.find? (fun kv => kv.1 = key) with
  | some kv => some kv.2
  | none => none

/-- The candidate loop shared by `_guess_journal` and the title resolution
of `_extract_metadata_from_preview`: the first truthy candidate whose
stripped text is non-empty. -/
def firstStripped (candidates : List (Option String)) : Option String :=
  candidates.findSome? fun c =>
    match c with
    | some s =>
      if s ≠ "" then
        let t := pyStrip s.data
        if t ≠ [] then some (String.mk t) else none
      else none
    | none => none

/-- ingest.py `_guess_journal`: prefer an embedded metadata field verbatim,
else scan the first 12 non-empty preview lines for a line containing a
journal-indicating keyword, truncating at a bullet if present. -/
def guess_journal (preview : String) (meta : List (String × String)) : Option String :=
  let candidates := [metaGet meta "Journal", metaGet meta "/Journal",
    metaGet meta "journal", metaGet meta "/Subject", metaGet meta "Subject"]
  match firstStripped candidates with
  | some j => some j
  | none =>
    let lines := (splitLines preview).filterMap fun ln =>
      let t := pyStrip ln.data
      if t ≠ [] then some t else none
    (lines.take 12).findSome? fun ln =>
      let normalized := pyStripChars [Char.ofNat 8226, '-', ' '] (collapseWs ln)
      let lowered := lowerL normalized
      if JOURNAL_KEYWORDS.any (fun kw => containsSub lowered kw.data) then
        if normalized.contains (Char.ofNat 8226) then
          some (String.mk (pyStrip ((splitOnCharL (Char.ofNat 8226) normalized).headD [])))
        else some (String.mk normalized)
      else none

/-- ingest.py `_find_abstract_index`: index of the first line that is
exactly "abstract" (module case and surrounding spaces/colons) or starts
with "abstract ". -/
def find_abstract_index (lines : List String) : Option Nat :=
  lines.findIdx? fun line =>
    let normalized := pyStripChars [' ', ':'] (lowerL line.data)
    normalized = "abstract".data || startsWithL normalized "abstract ".data

/-- The first loop of `_select_title_and_authors`: the first block with at
least three tokens, no header stopword, and a non-digit first token is the
title block; returns its position and content. -/
def find_title_block (idx : Nat) : List (List String) → Option (Nat × List String)
  | [] => none
  | block :: rest =>
    let joined := joinSep [' '] (block.map String.data)
    let tokens := (pySplit joined).map fun t => lowerL (pyStripChars ['.', ',', ';', ':'] t)
    if decide (tokens.length < 3) then find_title_block (idx + 1) rest
    else if tokens.any (fun t => HEADER_STOPWORDS.contains (String.mk t)) then
      find_title_block (idx + 1) rest
    else if pyIsDigit (tokens.headD []) then find_title_block (idx + 1) rest
    else some (idx, block)

/-- The second loop of `_select_title_and_authors`: accumulate author-line
candidates from the blocks after the title block until a block mentions
"abstract" (stop, excluding it) or parsing the accumulated text yields
authors.  Returns the parsed authors (empty for none) and the accumulated
lines. -/
def author_scan (acc : List String) : List (List String) → List String × List String
  | [] => ([], acc)
  | block :: rest =>
    let joined := joinSep [' '] (block.map String.data)
    if joined.isEmpty then author_scan acc rest
    else if containsSub (lowerL joined) "abstract".data then ([], acc)
    else
      let acc2 := acc ++ block
      let parsed := parse_author_names (String.mk (joinSep [' '] (acc2.map String.data)))
      if parsed.isEmpty then author_scan acc2 rest else (parsed, acc2)

/-- ingest.py `_select_title_and_authors`. -/
def select_title_and_authors (lines : List String) : Option String × List String :=
  let abstract_idx := find_abstract_index lines
  let candidate_lines := match abstract_idx with
    | some i => lines.take i
    | none => lines.take 40
  let blocks := split_blocks candidate_lines
  match find_title_block 0 blocks with
  | none => (none, [])
  | some (idx, block) =>
    let title := block.headD ""
    let author_lines := block.drop 1
    let (parsed, acc) := author_scan author_lines (blocks.drop (idx + 1))
    let authors :=
      if !parsed.isEmpty then parsed
      else if !acc.isEmpty then
        parse_author_names (String.mk (joinSep [' '] (acc.map String.data)))
      else []
    (some title, authors)

/-- ingest.py `_is_section_heading`.  The float test `uppercase_ratio >
0.85` is modelled by `100 * upper > 85 * letters`. -/
def is_section_heading (line : String) : Bool :=
  let normalized := pyStripChars [' ', ':'] (lowerL line.data)
  if SECTION_STOPWORDS.contains (String.mk normalized) then true
  else
    decide (100 * upperCount line.data > 85 * letterCount line.data)
      && decide ((pySplit line.data).length ≤ 12)

/-- The accumulation loop of ingest.py `_extract_abstract_from_lines`:
collect non-blank lines until a blank line after content, a section
heading, or 1500 accumulated characters. -/
def collect_abstract (acc : List String) : List String → List String
  | [] => acc
  | l :: ls =>
    if l = "" then (if acc.isEmpty then collect_abstract acc ls else acc)
    else if is_section_heading l then acc
    else
      let acc2 := acc ++ [l]
      if decide (1500 ≤ (joinSep [' '] (acc2.map String.data)).length) then acc2
      else collect_abstract acc2 ls

/-- ingest.py `_extract_abstract_from_lines`. -/
def extract_abstract_from_lines (lines : List String) (abstract_idx : Option Nat) :
    Option String :=
  match abstract_idx with
  | none => none
  | some idx =>
    let abstract_lines := collect_abstract [] (lines.drop (idx + 1))
    if abstract_lines.isEmpty then none
    else some (String.mk ((joinSep [' '] (abstract_lines.map String.data)).take 1500))

/-- State machine for `re.sub(r"([.!?]\s+)([a-z])", …)` in
`_normalize_abstract_text`: capitalize a lower-case letter following
sentence-ending punctuation plus whitespace.  State 0: scanning; 1: just
saw `.`/`!`/`?`; 2: saw it followed by at least one whitespace char. -/
def capSentences (state : Nat) : List Char → List Char
  | [] => []
  | c :: cs =>
    if c = '.' || c = '!' || c = '?' then c :: capSentences 1 cs
    else if state ≥ 1 && pyIsSpace c then c :: capSentences 2 cs
    else if state = 2 && c.isLower then Char.toUpper c :: capSentences 0 cs
    else c :: capSentences 0 cs

/-- ingest.py `_normalize_abstract_text`: collapse whitespace, re-case
whole words of at least four upper-case letters, capitalize the first
letter and the first letter of every following sentence. -/
def normalize_abstract_text (text : String) : String :=
  if text = "" then ""
  else
    let cleaned := collapseWs (pyStrip text.data)
    if cleaned.isEmpty then ""
    else
      let words := splitOnCharL ' ' cleaned
      let normalized_words := words.map fun (word : List Char) =>
        let stripped := word.filter (·.isAlpha)
        if decide (4 ≤ stripped.length) && stripped.all (·.isUpper) then
          let lowered := lowerL word
          if lowered.isEmpty then word else capFirst lowered
        else word
      let normalized := joinSep [' '] normalized_words
      if normalized.isEmpty then String.mk normalized
      else String.mk (capSentences 0 (capFirst normalized))

/-- ingest.py `_clean_parts`: split metadata fields on `;`, `,`, `/` and
keep the stripped non-empty chunks other than the literal "none". -/
def clean_parts (parts : List (Option String)) : List String :=
  parts.foldl (fun cleaned item =>
    match item with
    | none => cleaned
    | some s =>
      if s = "" then cleaned
      else
        cleaned ++ ((splitOnPred (fun c => c = ';' || c = ',' || c = '/') s.data).filterMap
          fun chunk =>
            let chunk := pyStrip chunk
            if chunk ≠ [] && String.mk (lowerL chunk) ≠ "none" then some (String.mk chunk)
            else none)) []

/-- The abstract fallback of `_extract_metadata_from_preview`: `if not
abstract: abstract = preview[:1500]`. -/
def resolve_abstract (preview : String) (abstract : Option String) : String :=
  match abstract with
  | some a => if a = "" then String.mk (preview.data.take 1500) else a
  | none => String.mk (preview.data.take 1500)

/-- ingest.py `_extract_metadata_from_preview`, returning (title, authors,
abstract, journal).  `getattr(meta, "title", None)` and `getattr(meta,
"author", None)` are always `None` because `meta` is a plain dict; they are
modelled as `none` candidates. -/
def extract_metadata_from_preview (preview : String) (meta : List (String × String))
    (stem : String) : String × List String × String × Option String :=
  let journal := guess_journal preview meta
  let lines := prepare_preview_lines preview
  let ta := select_title_and_authors lines
  let title := ta.1
  let authors := ta.2
  let abstract_idx := find_abstract_index lines
  let abstract := extract_abstract_from_lines lines abstract_idx
  let title_candidates := [title, metaGet meta "/Title", none, metaGet meta "Title"]
  let resolved_title := (firstStripped title_candidates).getD stem
  let authors := if authors.isEmpty then
      clean_parts [metaGet meta "/Author", none, metaGet meta "Author"]
    else authors
  let abstract := normalize_abstract_text (resolve_abstract preview abstract)
  let journal := journal.map smart_title_case
  (resolved_title, authors, abstract, journal)

/-! ### Document index (ingest.py `_load_existing`, `ingest_folder`) -/

/-- The persisted Paper Record (ingest.py `PaperMetadata.to_dict`). -/
structure PaperRecord where
  pdf_path : String
  title : String
  abstract : String
  year : Option Int
  authors : List String
  keywords : List String
  journal : Option String
deriving DecidableEq, Inhabited, Repr

/-- One assignment `d[k] = v` to a Python dict modelled as an ordered
association list: an existing key keeps its position and gets the new
value, a new key is appended. -/
def py_dict_insert {α β : Type} [BEq α] (acc : List (α × β)) (k : α) (v : β) :
    List (α × β) :=
  if acc.any (fun kv => kv.1 == k) then
    acc.map (fun kv => if kv.1 == k then (k, v) else kv)
  else acc ++ [(k, v)]

/-- Python-parsed JSON values, for the result of `json.load`. -/
inductive PyJson where
  | null : PyJson
  | bool (b : Bool) : PyJson
  | num (n : Int) : PyJson
  | str (s : String) : PyJson
  | arr (items : List PyJson) : PyJson
  | obj (fields : List (String × PyJson)) : PyJson

/-- Structural equality of JSON values (Python `==`). -/
def pyJsonBeq : PyJson → PyJson → Bool
  | .null, .null => true
  | .bool a, .bool b => a = b
  | .num a, .num b => a = b
  | .str a, .str b => a = b
  | .arr [], .arr [] => true
  | .arr (x :: xs), .arr (y :: ys) => pyJsonBeq x y && pyJsonBeq (.arr xs) (.arr ys)
  | .obj [], .obj [] => true
  | .obj ((k1, v1) :: xs), .obj ((k2, v2) :: ys) =>
    k1 = k2 && pyJsonBeq v1 v2 && pyJsonBeq (.obj xs) (.obj ys)
  | _, _ => false

instance : BEq PyJson := ⟨pyJsonBeq⟩

/-- Python truthiness of a JSON value. -/
def pyTruthy : PyJson → Bool
  | .null => false
  | .bool b => b
  | .num n => !(n = 0)
  | .str s => !(s = "")
  | .arr items => !items.isEmpty
  | .obj fields => !fields.isEmpty

/-- Python `item.get(key)` on a dict-valued JSON item (`null` models the
`None` default). -/
def pyObjGet (fields : List (String × PyJson)) (key : String) : PyJson :=
  match (fields.reverse.find? fun kv => kv.1 = key) with
  | some kv => kv.2
  | none => .null

/-- The Python exceptions the index loader can raise past its handler. -/
inductive PyError where
  | attributeError : PyError
  | typeError : PyError
deriving DecidableEq

/-- ingest.py `_load_existing` after `json.load`: `parsed = none` models a
raised parse error, which the `try` block turns into an empty index.  The
dict comprehension `{item.get("pdf_path"): item for item in items if
item.get("pdf_path")}` runs OUTSIDE the `try`: iterating a non-list raises
(`TypeError` for scalars; for a non-empty string or dict the element is a
string and `.get` raises `AttributeError`), and a non-dict list element
makes `item.get` raise `AttributeError`. -/
def load_existing_json (parsed : Option PyJson) :
    Except PyError (List (PyJson × PyJson)) :=
  match parsed with
  | none => .ok []
  | some (.arr items) =>
    items.foldlM (fun acc item =>
      match item with
      | .obj fields =>
        let key := pyObjGet fields "pdf_path"
        .ok (if pyTruthy key then py_dict_insert acc key item else acc)
      | _ => .error .attributeError) []
  | some (.str s) => if s = "" then .ok [] else .error .attributeError
  | some (.obj fields) => if fields.isEmpty then .ok [] else .error .attributeError
  | some _ => .error .typeError

/-- ingest.py `_load_existing` on a well-formed persisted index (a list of
serialized records): the dict comprehension keyed by `pdf_path`, skipping
records with a falsy path, later duplicates overwriting earlier ones. -/
def load_existing_records (items : List PaperRecord) : List (String × PaperRecord) :=
  (items.filter fun r => r.pdf_path ≠ "").foldl
    (fun acc r => py_dict_insert acc r.pdf_path r) []

/-- ingest.py `skipAlreadyIndexed` step inside `ingest_folder`:
`[p for p in pdf_paths if p not in existing]`. -/
def skip_already_indexed (existing : List (String × PaperRecord)) (paths : List String) :
    List String :=
  paths.filter fun p => !(existing.any fun kv => kv.1 == p)

/-- Sorting records by title: Python `sorted(..., key=lambda item:
item["title"])`, a stable sort. -/
def sortByTitle (records : List PaperRecord) : List PaperRecord :=
  List.insertionSort (fun a b => a.title ≤ b.title) records

/-- The error raised by `ingest_folder` for a missing input folder. -/
inductive IngestError where
  | fileNotFound : IngestError
deriving DecidableEq

/-- The successful body of ingest.py `ingest_folder`: load the existing
index, skip already-indexed paths, extract the remaining documents
(`process p = none` models a per-document failure, logged and skipped),
merge the new records into the existing-by-path map, and persist all
records sorted by title.  If nothing is left to process the function
returns early and the persisted file is untouched.  `pdf_paths` stands for
the sorted list of discovered PDF paths; worker-pool completion order only
permutes `results`, which does not change the merged map because new keys
are fresh. -/
def ingest_body (persisted : List PaperRecord) (pdf_paths : List String)
    (process : String → Option PaperRecord) : List PaperRecord :=
  let existing := load_existing_records persisted
  let to_process := skip_already_indexed existing pdf_paths
  if to_process.isEmpty then persisted
  else
    let results := to_process.filterMap process
    let merged := results.foldl (fun acc r => py_dict_insert acc r.pdf_path r) existing
    sortByTitle (merged.map fun kv => kv.2)

/-- ingest.py `ingest_folder`: raises `FileNotFoundError` before touching
the persisted index when the PDF folder does not exist. -/
def ingest_folder (folderExists : Bool) (persisted : List PaperRecord)
    (pdf_paths : List String) (process : String → Option PaperRecord) :
    Except IngestError (List PaperRecord) :=
  if !folderExists then .error .fileNotFound
  else .ok (ingest_body persisted pdf_paths process)

/-- The content of the persisted index file after a call to
`ingest_folder`: unchanged when the call raised. -/
def index_file_after (folderExists : Bool) (persisted : List PaperRecord)
    (pdf_paths : List String) (process : String → Option PaperRecord) :
    List PaperRecord :=
  match ingest_folder folderExists persisted pdf_paths process with
  | .error _ => persisted
  | .ok l => l

/-! ### Search engine (search_engine.py) -/

/-- The errors `PaperSearchEngine` construction can raise:
`FileNotFoundError` from `_load_index`, `ValueError` from
`_build_vector_store`. -/
inductive EngineError where
  | fileNotFound : EngineError
  | emptyIndex : EngineError
deriving DecidableEq

/-- search_engine.py `PaperSearchEngine._compose_search_text`: concatenate
the truthy scalar fields and the list fields of a record. -/
def compose_search_text (p : PaperRecord) : String :=
  let parts : List String := []
  let parts := parts ++ (if p.title ≠ "" then [p.title] else [])
  let parts := parts ++ (if p.abstract ≠ "" then [p.abstract] else [])
  let parts := parts ++ (match p.journal with
    | some j => if j ≠ "" then [j] else []
    | none => [])
  let parts := parts ++ p.authors ++ p.keywords
  String.mk (joinSep [' '] (parts.map String.data))

/-- search_engine.py `PaperSearchEngine._build_vector_store`: compose the
corpus and fail on an empty one; the fitted TF-IDF matrix itself is an
external sklearn object, so the model keeps the corpus. -/
def build_vector_store (papers : List PaperRecord) : Except EngineError (List String) :=
  let corpus := papers.map compose_search_text
  if corpus.isEmpty then .error .emptyIndex
  else .ok corpus

/-- search_engine.py `PaperSearchEngine.__init__`/`_load_index`: a missing
index path raises `FileNotFoundError` ("Run ingest first"), then the
parsed records feed `_build_vector_store`. -/
def mkEngine (pathExists : Bool) (papers : List PaperRecord) :
    Except EngineError (List PaperRecord) :=
  if !pathExists then .error .fileNotFound
  else
    match build_vector_store papers with
    | .error e => .error e
    | .ok _ => .ok papers

/-- `np.argsort(sims)` in numpy's small-array regime: below the
insertion-sort threshold the default quicksort falls back to a stable
insertion sort, so equal values keep ascending index order.  On larger
arrays numpy documents only the contract `isArgsortOf` below (the
default quicksort is not stable); this concrete model is used for the
two-element counterexample, where it is exact. -/
def argsort (sims : List ℚ) : List Nat :=
  List.insertionSort
    (fun i j => sims.getD i 0 < sims.getD j 0 ∨ (sims.getD i 0 = sims.getD j 0 ∧ i ≤ j))
    (List.range sims.length)

/-- The ranking `np.argsort(sims)[::-1]` used by `search`. -/
def search_ranking (sims : List ℚ) : List Nat := (argsort sims).reverse

/-- search_engine.py `PaperSearchEngine.search`.  The TF-IDF cosine
similarities of the indexed documents against the query are the abstract
input `sims` (one score per paper, computed by sklearn); the function
models the ranking, truncation and result assembly of the Python body. -/
def search (papers : List PaperRecord) (sims : List ℚ) (query : String) (top_k : Int) :
    List (PaperRecord × ℚ) :=
  if query = "" then []
  else
    let k := if top_k ≤ 0 then papers.length else top_k.toNat
    let top_indices := (search_ranking sims).take k
    top_indices.map fun i => (papers.getD i default, sims.getD i 0)

/-- numpy's documented contract for `np.argsort(sims)` under any sort
kind: the result is a permutation of the indices `0 .. len(sims) - 1`
along which the similarities are non-decreasing.  The order of equal
values is NOT specified — the default quicksort is not stable — so any
order satisfying this contract may come back. -/
def isArgsortOf (sims : List ℚ) (order : List Nat) : Prop :=
  List.Perm order (List.range sims.length) ∧
  order.Pairwise (fun i j => sims.getD i 0 ≤ sims.getD j 0)

/-- search_engine.py `PaperSearchEngine.search` with the `np.argsort`
output abstracted: `order` stands for whichever index order the library
sort returned; the body reverses it, truncates to `top_k` and assembles
the scored records exactly as the Python loop does. -/
def search_with (papers : List PaperRecord) (sims : List ℚ) (order : List Nat)
    (query : String) (top_k : Int) : List (PaperRecord × ℚ) :=
  if query = "" then []
  else
    let k := if top_k ≤ 0 then papers.length else top_k.toNat
    let top_indices := order.reverse.take k
    top_indices.map fun i => (papers.getD i default, sims.getD i 0)

/-! ### Full-text loader (search_engine.py `load_fulltext`) -/

/-- Python truthiness of the optional integer bounds of `load_fulltext`
(`None` and `0` are falsy). -/
def truthyBound : Option Nat → Bool
  | none => false
  | some n => !(n = 0)

/-- `max_pages or len(pages)` from `load_fulltext`. -/
def pagesBound (max_pages : Option Nat) (n : Nat) : Nat :=
  if truthyBound max_pages then max_pages.getD n else n

/-- The page loop of `load_fulltext`: each page yields `some text` or
`none` for a raised per-page extraction error (treated as empty text);
empty texts are skipped, and accumulation stops once `max_chars` is truthy
and reached. -/
def fulltext_segments (max_chars : Option Nat) (total : Nat) :
    List (Option String) → List String
  | [] => []
  | page :: rest =>
    let text := (page.getD "")
    if text = "" then fulltext_segments max_chars total rest
    else
      let total2 := total + text.length
      if truthyBound max_chars && decide (max_chars.getD 0 ≤ total2) then [text]
      else text :: fulltext_segments max_chars total2 rest

/-- search_engine.py `PaperSearchEngine.load_fulltext` over the pages of an
already-opened document. -/
def load_fulltext (pages : List (Option String)) (max_pages max_chars : Option Nat) :
    String :=
  let segments := fulltext_segments max_chars 0 (pages.take (pagesBound max_pages pages.length))
  let combined := joinSep ['\n'] (segments.map String.data)
  if truthyBound max_chars then String.mk (combined.take (max_chars.getD 0))
  else String.mk combined

/-! ### Concrete inputs used by individual claims -/

/-- The synthetic preview text of spec §8.7: title line, blank, author
line, blank, "Abstract", abstract sentence, blank, "Introduction". -/
def c1_preview : String :=
  "Taxation and Growth: A New Look\n\nJane Doe, John Smith\n\nAbstract\nThis paper studies the relationship between taxation and growth using panel data.\n\nIntroduction"

/-- A minimal indexed record used in concrete search instances. -/
def recA : PaperRecord :=
  { pdf_path := "a.pdf", title := "A", abstract := "", year := none,
    authors := [], keywords := [], journal := none }

/-- A second minimal indexed record, distinct from `recA`. -/
def recB : PaperRecord :=
  { pdf_path := "b.pdf", title := "B", abstract := "", year := none,
    authors := [], keywords := [], journal := none }

/-- An extractor for the C4 witness: produces `recA` for its path. -/
def c4proc : String → Option PaperRecord :=
  fun p => if p = "a.pdf" then some recA else none

/-- A JSON object shaped like a serialized record, for the loader claims. -/
def jsonRecord : PyJson := .obj [("pdf_path", .str "a.pdf")]

/-- Is this JSON value a JSON object (a Python dict)? -/
def isObjJson : PyJson → Bool
  | .obj _ => true
  | _ => false

/-- The invariant of the loaded index map: pairwise-distinct keys, and each
entry keyed by its record's non-empty `pdf_path`. -/
def goodMap (m : List (String × PaperRecord)) : Prop :=
  (m.map fun kv => kv.1).Nodup ∧ ∀ kv ∈ m, kv.2.pdf_path = kv.1 ∧ kv.1 ≠ ""

/-- The shape of `groupRuns` output on a stripped non-empty string: a
non-empty whitespace-free word, then alternating non-empty whitespace runs
and words, ending with a word. -/
inductive AltChain : List (List Char) → Prop where
  | single (w : List Char) (hne : w ≠ []) (hw : ∀ c ∈ w, pyIsSpace c = false) : AltChain [w]
  | cons (w sep : List Char) (rest : List (List Char)) (hne : w ≠ [])
      (hw : ∀ c ∈ w, pyIsSpace c = false) (hsne : sep ≠ [])
      (hs : ∀ c ∈ sep, pyIsSpace c = true) (hrest : AltChain rest) :
      AltChain (w :: sep :: rest)

end EconSearch

namespace EconSearch

/-! ### Theorems -/

set_option maxRecDepth 40000

/-- UInt32 order reflects to natural-number order. -/
theorem ule_toNat (a b : UInt32) : a ≤ b ↔ a.toNat ≤ b.toNat := by
  rw [UInt32.le_def, BitVec.le_def]
  rfl

/-- `Char.ofNat` round-trips on valid code points below the surrogates. -/
theorem toNat_ofNat_valid {n : Nat} (h : n < 55296) : (Char.ofNat n).toNat = n := by
  unfold Char.ofNat
  rw [dif_pos (Or.inl h)]
  rfl

/-- Characters with equal code points are equal. -/
theorem char_eq_of_toNat_eq {a b : Char} (h : a.toNat = b.toNat) : a = b :=
  Char.ext (UInt32.ext h)

/-- Character equality is code-point equality. -/
theorem char_eq_iff_toNat {a b : Char} : a = b ↔ a.toNat = b.toNat :=
  ⟨fun h => h ▸ rfl, char_eq_of_toNat_eq⟩

/-- `Char.isUpper` as a code-point range. -/
theorem isUpper_iff (c : Char) : c.isUpper = true ↔ 65 ≤ c.toNat ∧ c.toNat ≤ 90 := by
  unfold Char.isUpper
  simp only [Bool.and_eq_true, decide_eq_true_eq, ge_iff_le, ule_toNat]
  exact Iff.rfl

/-- `Char.isLower` as a code-point range. -/
theorem isLower_iff (c : Char) : c.isLower = true ↔ 97 ≤ c.toNat ∧ c.toNat ≤ 122 := by
  unfold Char.isLower
  simp only [Bool.and_eq_true, decide_eq_true_eq, ge_iff_le, ule_toNat]
  exact Iff.rfl

/-- The code point of `Char.toLower`. -/
theorem toLower_toNat (c : Char) :
    c.toLower.toNat = if 65 ≤ c.toNat ∧ c.toNat ≤ 90 then c.toNat + 32 else c.toNat := by
  show (if c.toNat ≥ 65 ∧ c.toNat ≤ 90 then Char.ofNat (c.toNat + 32) else c).toNat = _
  by_cases h : 65 ≤ c.toNat ∧ c.toNat ≤ 90
  · rw [if_pos h, if_pos h, toNat_ofNat_valid (by omega)]
  · rw [if_neg h, if_neg h]

/-- The code point of `Char.toUpper`. -/
theorem toUpper_toNat (c : Char) :
    c.toUpper.toNat = if 97 ≤ c.toNat ∧ c.toNat ≤ 122 then c.toNat - 32 else c.toNat := by
  show (if c.toNat ≥ 97 ∧ c.toNat ≤ 122 then Char.ofNat (c.toNat - 32) else c).toNat = _
  by_cases h : 97 ≤ c.toNat ∧ c.toNat ≤ 122
  · rw [if_pos h, if_pos h, toNat_ofNat_valid (by omega)]
  · rw [if_neg h, if_neg h]

/-- Lower-casing is idempotent. -/
theorem toLower_toLower (c : Char) : c.toLower.toLower = c.toLower := by
  apply char_eq_of_toNat_eq
  have e1 := toLower_toNat c
  have e2 := toLower_toNat c.toLower
  split at e1 <;> split at e2 <;> omega

/-- Lower-casing undoes the upper-casing of a lowered character. -/
theorem toLower_toUpper_toLower (c : Char) : c.toLower.toUpper.toLower = c.toLower := by
  apply char_eq_of_toNat_eq
  have e1 := toLower_toNat c
  have e2 := toUpper_toNat c.toLower
  have e3 := toLower_toNat c.toLower.toUpper
  split at e1 <;> split at e2 <;> split at e3 <;> omega

/-- Whitespace as a set of code points. -/
theorem pyIsSpace_iff_toNat (c : Char) :
    pyIsSpace c = true ↔
      (c.toNat = 32 ∨ c.toNat = 9 ∨ c.toNat = 10 ∨ c.toNat = 13 ∨ c.toNat = 11 ∨ c.toNat = 12) := by
  have hsp : (' ' : Char).toNat = 32 := rfl
  have hta : ('\t' : Char).toNat = 9 := rfl
  have hnl : ('\n' : Char).toNat = 10 := rfl
  have hcr : ('\r' : Char).toNat = 13 := rfl
  unfold pyIsSpace
  simp only [Bool.or_eq_true, decide_eq_true_eq, char_eq_iff_toNat, hsp, hta, hnl, hcr]
  tauto

/-- Case maps preserve whitespace-ness (lower). -/
theorem pyIsSpace_toLower (c : Char) : pyIsSpace c.toLower = pyIsSpace c := by
  rw [Bool.eq_iff_iff, pyIsSpace_iff_toNat, pyIsSpace_iff_toNat]
  have e1 := toLower_toNat c
  split at e1 <;> omega

/-- Case maps preserve whitespace-ness (upper). -/
theorem pyIsSpace_toUpper (c : Char) : pyIsSpace c.toUpper = pyIsSpace c := by
  rw [Bool.eq_iff_iff, pyIsSpace_iff_toNat, pyIsSpace_iff_toNat]
  have e1 := toUpper_toNat c
  split at e1 <;> omega

/-- Lower-casing maps no character to a hyphen except the hyphen. -/
theorem toLower_eq_hyphen (c : Char) : (c.toLower = '-') ↔ c = '-' := by
  have hh : ('-' : Char).toNat = 45 := rfl
  rw [char_eq_iff_toNat, char_eq_iff_toNat, hh]
  have e1 := toLower_toNat c
  split at e1 <;> omega

/-- Upper-casing maps no character to a hyphen except the hyphen. -/
theorem toUpper_eq_hyphen (c : Char) : (c.toUpper = '-') ↔ c = '-' := by
  have hh : ('-' : Char).toNat = 45 := rfl
  rw [char_eq_iff_toNat, char_eq_iff_toNat, hh]
  have e1 := toUpper_toNat c
  split at e1 <;> omega

/-- Upper-casing the lowered form of a letter yields an upper-case
letter. -/
theorem isUpper_toUpper_toLower (c : Char) (h : c.isAlpha = true) :
    (c.toLower.toUpper).isUpper = true := by
  rw [isUpper_iff]
  unfold Char.isAlpha at h
  rw [Bool.or_eq_true] at h
  rw [isUpper_iff, isLower_iff] at h
  have e1 := toLower_toNat c
  have e2 := toUpper_toNat c.toLower
  split at e1 <;> split at e2 <;> omega

/-- Letters are not whitespace. -/
theorem isAlpha_not_space (c : Char) (h : c.isAlpha = true) : pyIsSpace c = false := by
  rw [Bool.eq_false_iff]
  intro hs
  rw [pyIsSpace_iff_toNat] at hs
  unfold Char.isAlpha at h
  rw [Bool.or_eq_true, isUpper_iff, isLower_iff] at h
  omega

/-- Letters are not hyphens. -/
theorem isAlpha_ne_hyphen (c : Char) (h : c.isAlpha = true) : c ≠ '-' := by
  intro he
  rw [char_eq_iff_toNat] at he
  have hh : ('-' : Char).toNat = 45 := rfl
  unfold Char.isAlpha at h
  rw [Bool.or_eq_true, isUpper_iff, isLower_iff] at h
  omega

/-- C5: for every index path that does not exist on disk, constructing the
search engine raises the distinct not-found error (`FileNotFoundError`,
"Run ingest first") and never yields an engine, whatever the parsed
records would have been. -/
theorem c5_missing_index_raises (papers : List PaperRecord) :
    mkEngine false papers = .error .fileNotFound ∧
    ∀ ps : List PaperRecord, mkEngine false papers ≠ .ok ps := by
  refine ⟨rfl, fun ps h => ?_⟩
  simp [mkEngine] at h

/-- C6: for a persisted index that parses to a list of zero records,
building the vector store is a hard failure (`ValueError`), and engine
construction over the empty index fails with that error rather than
tolerating the empty corpus. -/
theorem c6_empty_index_fails :
    build_vector_store [] = .error .emptyIndex ∧
    mkEngine true [] = .error .emptyIndex :=
  ⟨rfl, rfl⟩

/-- The page loop of `load_fulltext` behaves identically under
`max_chars = some 0` and `max_chars = none`: both are falsy bounds. -/
theorem fulltext_segments_zero (l : List (Option String)) (total : Nat) :
    fulltext_segments (some 0) total l = fulltext_segments none total l := by
  induction l generalizing total with
  | nil => rfl
  | cons page rest ih =>
    simp only [fulltext_segments, truthyBound]
    split
    · exact ih total
    · simp [ih]

/-- C9: at `load_fulltext`, a zero bound disables the bound rather than
bounding to zero — `max_pages = 0` reads all pages and `max_chars = 0`
applies no truncation, each call equal to the corresponding unbounded
call. -/
theorem c9_zero_bounds_disable (pages : List (Option String)) (mc mp : Option Nat) :
    load_fulltext pages (some 0) mc = load_fulltext pages none mc ∧
    load_fulltext pages mp (some 0) = load_fulltext pages mp none := by
  constructor
  · simp [load_fulltext, pagesBound, truthyBound]
  · simp [load_fulltext, fulltext_segments_zero, truthyBound]

/-- C10: for a folder path that does not exist, `ingest_folder` raises
`FileNotFoundError` before reading or writing the persisted index, and the
persisted index file is left unchanged. -/
theorem c10_missing_folder_atomic (persisted : List PaperRecord)
    (pdf_paths : List String) (process : String → Option PaperRecord) :
    ingest_folder false persisted pdf_paths process = .error .fileNotFound ∧
    index_file_after false persisted pdf_paths process = persisted :=
  ⟨rfl, rfl⟩

/-- C3 counterexample: the claim says loading the persisted index never
raises for any file content, including well-formed JSON that is not a list
of record objects; but for the parsed content `[1]` the dict comprehension
(outside the `try` block) raises `AttributeError`. -/
theorem c3_load_raises_counterexample :
    load_existing_json (some (.arr [.num 1])) = .error .attributeError := rfl

/-- C3 amended: on any JSON parse failure the load returns the empty index
without raising; but the post-parse dict comprehension runs outside the
error handler, so well-formed JSON that is not a list of objects raises.
Whenever the file parses to a list of JSON objects, loading succeeds. -/
theorem c3_load_amended :
    load_existing_json none = .ok [] ∧
    ∀ items : List PyJson, items.all isObjJson = true →
      ∃ m, load_existing_json (some (.arr items)) = .ok m := by
  refine ⟨rfl, fun items h => ?_⟩
  suffices step : ∀ (items : List PyJson) (acc : List (PyJson × PyJson)),
      items.all isObjJson = true →
      ∃ m, (items.foldlM (fun acc item =>
        match item with
        | .obj fields =>
          let key := pyObjGet fields "pdf_path"
          Except.ok (if pyTruthy key then py_dict_insert acc key item else acc)
        | _ => Except.error PyError.attributeError) acc) = .ok m by
    exact step items [] h
  intro items
  induction items with
  | nil => exact fun acc _ => ⟨acc, rfl⟩
  | cons x xs ih =>
    intro acc h
    simp only [List.all_cons, Bool.and_eq_true] at h
    match x, h.1 with
    | .obj fields, _ =>
      simpa [List.foldlM] using ih _ h.2

/-- C3 witness: the amended statement instantiated at a parse failure and
at a one-object list. -/
theorem c3_load_amended_witness :
    load_existing_json none = .ok [] ∧
    ∃ m, load_existing_json (some (.arr [jsonRecord])) = .ok m :=
  ⟨c3_load_amended.1, c3_load_amended.2 [jsonRecord] rfl⟩

/-- C1 counterexample: on the synthetic preview of spec §8.7 the claim
says the journal field is absent, but `_guess_journal` scans the first 12
non-empty lines for journal keywords and the abstract sentence contains
the keyword "studies", so extraction returns a journal. -/
theorem c1_journal_not_absent :
    (extract_metadata_from_preview c1_preview [] "paper").2.2.2 ≠ none := by
  decide

/-- C1 amended: on the synthetic preview, extraction yields the claimed
title, authors and abstract (which starts with "This paper studies"), but
the journal is not absent: the abstract sentence contains the
journal-indicating keyword "studies", so the journal field holds that
sentence in smart title case. -/
theorem c1_extraction_amended :
    extract_metadata_from_preview c1_preview [] "paper" =
      ("Taxation and Growth: A New Look", ["Jane Doe", "John Smith"],
       "This paper studies the relationship between taxation and growth using panel data.",
       some "This Paper Studies the Relationship Between Taxation and Growth Using Panel Data.") ∧
    startsWithL (extract_metadata_from_preview c1_preview [] "paper").2.2.1.data
      "This paper studies".data = true := by
  constructor <;> decide

/-- `np.argsort` (as modelled) sorts the indices by ascending similarity,
equal similarities ordered by ascending index. -/
theorem argsort_sorted (sims : List ℚ) :
    List.Sorted
      (fun i j => sims.getD i 0 < sims.getD j 0 ∨ (sims.getD i 0 = sims.getD j 0 ∧ i ≤ j))
      (argsort sims) := by
  haveI : IsTotal ℕ
      (fun i j => sims.getD i 0 < sims.getD j 0 ∨ (sims.getD i 0 = sims.getD j 0 ∧ i ≤ j)) := by
    constructor
    intro i j
    rcases lt_trichotomy (sims.getD i 0) (sims.getD j 0) with h | h | h
    · exact Or.inl (Or.inl h)
    · rcases Nat.le_total i j with hij | hij
      · exact Or.inl (Or.inr ⟨h, hij⟩)
      · exact Or.inr (Or.inr ⟨h.symm, hij⟩)
    · exact Or.inr (Or.inl h)
  haveI : IsTrans ℕ
      (fun i j => sims.getD i 0 < sims.getD j 0 ∨ (sims.getD i 0 = sims.getD j 0 ∧ i ≤ j)) := by
    constructor
    rintro i j k (h1 | ⟨h1, hij⟩) (h2 | ⟨h2, hjk⟩)
    · exact Or.inl (h1.trans h2)
    · exact Or.inl (h2 ▸ h1)
    · exact Or.inl (h1 ▸ h2)
    · exact Or.inr ⟨h1.trans h2, hij.trans hjk⟩
  exact List.sorted_insertionSort _ _

/-- The ranking indices are pairwise distinct (a permutation of
`range sims.length`). -/
theorem argsort_nodup (sims : List ℚ) : (argsort sims).Nodup :=
  (List.perm_insertionSort _ _).symm.nodup (List.nodup_range _)

/-- C2 counterexample: the claim says equal-similarity documents appear in
ascending original-index order; but `search` reverses an ascending
argsort, so on two documents with equal similarity (a two-element array,
inside numpy's stable insertion-sort regime where the tie order is
exact) the one with the larger index comes first. -/
theorem c2_search_tie_counterexample :
    search [recA, recB] [1, 1] "q" 2 = [(recB, 1), (recA, 1)] ∧ recA ≠ recB := by
  constructor <;> decide

/-- C2 amended: for every non-empty query and `k > 0`, `search` returns
at most `k` results ordered by non-increasing similarity score — and
this holds for EVERY index order satisfying numpy's argsort contract,
which leaves the order of equal similarities unspecified (the default
quicksort is not stable), so no tie-breaking rule can be asserted in
general; the concrete stable model `argsort` is one admissible such
order and `search` is the abstracted body run on it. -/
theorem c2_search_amended (papers : List PaperRecord) (sims : List ℚ) (order : List Nat)
    (query : String) (top_k : Int) (hq : query ≠ "") (hk : 0 < top_k)
    (horder : isArgsortOf sims order) :
    (search_with papers sims order query top_k).length ≤ top_k.toNat ∧
    (search_with papers sims order query top_k).Pairwise (fun a b => b.2 ≤ a.2) ∧
    isArgsortOf sims (argsort sims) ∧
    search papers sims query top_k = search_with papers sims (argsort sims) query top_k := by
  have hw : search_with papers sims order query top_k =
      (order.reverse.take top_k.toNat).map
        (fun i => (papers.getD i default, sims.getD i 0)) := by
    unfold search_with
    rw [if_neg hq, if_neg (not_le.mpr hk)]
  refine ⟨?_, ?_, ?_, rfl⟩
  · rw [hw, List.length_map]
    exact List.length_take_le _ _
  · rw [hw, List.pairwise_map]
    have hrev : order.reverse.Pairwise (fun i j => sims.getD j 0 ≤ sims.getD i 0) :=
      (List.pairwise_reverse).mpr horder.2
    exact (hrev.sublist (List.take_sublist _ _)).imp (fun h => h)
  · refine ⟨List.perm_insertionSort _ _, ?_⟩
    have hsorted := argsort_sorted sims
    rw [List.Sorted] at hsorted
    refine hsorted.imp ?_
    rintro i j (h | ⟨heq, _⟩)
    · exact le_of_lt h
    · exact le_of_eq heq

/-- C2 witness: the amended statement instantiated at a two-record index
with tied similarities, the ascending index order as the library's
choice, query "q" and `k = 2`. -/
theorem c2_search_amended_witness :
    (search_with [recA, recB] [1, 1] [0, 1] "q" 2).length ≤ (2 : Int).toNat ∧
    (search_with [recA, recB] [1, 1] [0, 1] "q" 2).Pairwise (fun a b => b.2 ≤ a.2) ∧
    isArgsortOf [1, 1] (argsort [1, 1]) ∧
    search [recA, recB] [1, 1] "q" 2 =
      search_with [recA, recB] [1, 1] (argsort [1, 1]) "q" 2 :=
  c2_search_amended [recA, recB] [1, 1] [0, 1] "q" 2 (by decide) (by decide)
    ⟨by decide, by decide⟩

/-- The length of a packed string is the length of its character list. -/
theorem length_mk (l : List Char) : (String.mk l).length = l.length := rfl

/-- `dropWhile` never lengthens a list. -/
theorem length_dropWhile_le {α : Type} (p : α → Bool) (l : List α) :
    (l.dropWhile p).length ≤ l.length := by
  induction l with
  | nil => simp [List.dropWhile]
  | cons a l ih =>
    simp only [List.dropWhile]
    split
    · exact le_trans ih (Nat.le_succ _)
    · exact le_refl _

/-- Stripping never lengthens a string. -/
theorem pyStrip_length_le (l : List Char) : (pyStrip l).length ≤ l.length := by
  unfold pyStrip dropWhileRight
  calc ((l.dropWhile pyIsSpace).reverse.dropWhile pyIsSpace).reverse.length
      = ((l.dropWhile pyIsSpace).reverse.dropWhile pyIsSpace).length := List.length_reverse _
    _ ≤ (l.dropWhile pyIsSpace).reverse.length := length_dropWhile_le _ _
    _ = (l.dropWhile pyIsSpace).length := List.length_reverse _
    _ ≤ l.length := length_dropWhile_le _ _

/-- Concatenating the runs of a string gives the string back. -/
theorem groupRuns_join (l : List Char) : (groupRuns l).foldr (· ++ ·) [] = l := by
  induction l with
  | nil => rfl
  | cons c cs ih =>
    simp only [groupRuns]
    rcases h : groupRuns cs with _ | ⟨g, gs⟩
    · rw [h] at ih
      simp only [List.foldr] at ih ⊢
      simp [← ih]
    · rw [h] at ih
      cases g with
      | nil =>
        simp only [List.foldr] at ih ⊢
        simp [← ih]
      | cons d g2 =>
        by_cases hcd : pyIsSpace c = pyIsSpace d
        · simp only [hcd, if_true, List.foldr] at ih ⊢
          simp [← ih]
        · simp only [if_neg hcd, List.foldr] at ih ⊢
          simp [← ih]

/-- Concatenation of piecewise-shorter pieces is shorter. -/
theorem foldr_append_length_le (f : List Char → List Char) (gs : List (List Char))
    (h : ∀ g ∈ gs, (f g).length ≤ g.length) :
    ((gs.map f).foldr (· ++ ·) []).length ≤ (gs.foldr (· ++ ·) []).length := by
  induction gs with
  | nil => simp
  | cons g gs ih =>
    simp only [List.map, List.foldr, List.length_append]
    exact Nat.add_le_add (h g (List.mem_cons_self g gs)) (ih fun x hx => h x (List.mem_cons_of_mem _ hx))

/-- Collapsing whitespace never lengthens a string. -/
theorem collapseWs_length_le (l : List Char) : (collapseWs l).length ≤ l.length := by
  unfold collapseWs
  calc (((groupRuns l).map fun g => if g.any pyIsSpace then [' '] else g).foldr (· ++ ·) []).length
      ≤ ((groupRuns l).foldr (· ++ ·) []).length := by
        refine foldr_append_length_le _ _ fun g hg => ?_
        split
        · rename_i hany
          have : g ≠ [] := by
            intro he
            subst he
            simp at hany
          simpa using Nat.one_le_iff_ne_zero.mpr (by simpa [List.length_eq_zero] using this)
        · exact le_refl _
    _ = l.length := by rw [groupRuns_join]

/-- Joining a single-character split restores the string. -/
theorem joinSep_splitOnCharL (sep : Char) (l : List Char) :
    joinSep [sep] (splitOnCharL sep l) = l := by
  induction l with
  | nil => rfl
  | cons c cs ih =>
    simp only [splitOnCharL]
    rcases h : splitOnCharL sep cs with _ | ⟨hd, t⟩
    · rw [h] at ih
      simp only [joinSep] at ih
      simp only [joinSep]
      rw [← ih]
    · rw [h] at ih
      by_cases hc : c = sep
      · subst hc
        simp only [if_pos rfl, joinSep]
        rw [ih]
        simp
      · simp only [if_neg hc]
        cases t with
        | nil =>
          simp only [joinSep] at ih ⊢
          rw [← ih]
        | cons u us =>
          simp only [joinSep] at ih ⊢
          rw [← ih]
          simp

/-- Joining length-preserved pieces preserves the total length. -/
theorem joinSep_map_length (sep : List Char) (f : List Char → List Char)
    (ps : List (List Char)) (h : ∀ p ∈ ps, (f p).length = p.length) :
    (joinSep sep (ps.map f)).length = (joinSep sep ps).length := by
  induction ps with
  | nil => rfl
  | cons x rest ih =>
    cases rest with
    | nil => simpa [joinSep] using h x (by simp)
    | cons y rest2 =>
      have ih2 := ih fun p hp => h p (List.mem_cons_of_mem _ hp)
      simp only [List.map] at ih2
      simp only [List.map, joinSep, List.length_append]
      rw [h x (by simp), ih2]

/-- Capitalizing the first character preserves length. -/
theorem capFirst_length (l : List Char) : (capFirst l).length = l.length := by
  cases l <;> simp [capFirst]

/-- The sentence-capitalization pass preserves length. -/
theorem capSentences_length (state : Nat) (l : List Char) :
    (capSentences state l).length = l.length := by
  induction l generalizing state with
  | nil => rfl
  | cons c cs ih =>
    simp only [capSentences]
    split
    · simp [ih]
    · split
      · simp [ih]
      · split
        · simp [ih]
        · simp [ih]

/-- `_normalize_abstract_text` never lengthens its input. -/
theorem normalize_abstract_length_le (t : String) :
    (normalize_abstract_text t).length ≤ t.length := by
  by_cases ht : t = ""
  · simp [normalize_abstract_text, ht]
  · simp only [normalize_abstract_text, if_neg ht]
    by_cases hc : (collapseWs (pyStrip t.data)).isEmpty
    · simp only [hc, if_true]
      exact Nat.zero_le _
    · simp only [hc, if_false, Bool.false_eq_true]
      have hclean : (collapseWs (pyStrip t.data)).length ≤ t.length :=
        le_trans (collapseWs_length_le _) (pyStrip_length_le _)
      set cleaned := collapseWs (pyStrip t.data) with hcdef
      set words := splitOnCharL ' ' cleaned with hwdef
      have hjoin : (joinSep [' '] (words.map fun (word : List Char) =>
          let stripped := word.filter (·.isAlpha)
          if decide (4 ≤ stripped.length) && stripped.all (·.isUpper) then
            let lowered := lowerL word
            if lowered.isEmpty then word else capFirst lowered
          else word)).length = cleaned.length := by
        rw [joinSep_map_length]
        · rw [hwdef, joinSep_splitOnCharL]
        · intro p hp
          dsimp only
          split
          · split
            · rfl
            · simp [capFirst_length, lowerL]
          · rfl
      split
      · rename_i hne
        rw [length_mk, List.isEmpty_iff.mp hne]
        simp
      · rw [length_mk, capSentences_length, capFirst_length, hjoin]
        exact hclean

/-- An abstract collected from the lines after an "abstract" marker is
truncated to at most 1500 characters. -/
theorem extract_abstract_length (lines : List String) (idx : Option Nat) (a : String)
    (h : extract_abstract_from_lines lines idx = some a) : a.length ≤ 1500 := by
  unfold extract_abstract_from_lines at h
  cases idx with
  | none => simp at h
  | some i =>
    simp only at h
    split at h
    · simp at h
    · rw [Option.some_inj] at h
      subst h
      simp [length_mk, List.length_take]

/-- C8: for every input document the abstract field of the produced
record has length at most 1500 characters, both when collected after an
"abstract" marker and when falling back to the first 1500 characters of
the preview, and abstract normalization never increases the length. -/
theorem c8_abstract_bounded (preview : String) (meta : List (String × String)) (stem : String) :
    ((extract_metadata_from_preview preview meta stem).2.2.1).length ≤ 1500 ∧
    ∀ t : String, (normalize_abstract_text t).length ≤ t.length := by
  constructor
  · have heq : (extract_metadata_from_preview preview meta stem).2.2.1
        = normalize_abstract_text (resolve_abstract preview
            (extract_abstract_from_lines (prepare_preview_lines preview)
              (find_abstract_index (prepare_preview_lines preview)))) := rfl
    rw [heq]
    refine le_trans (normalize_abstract_length_le _) ?_
    rcases h : extract_abstract_from_lines (prepare_preview_lines preview)
        (find_abstract_index (prepare_preview_lines preview)) with _ | a
    · simp [resolve_abstract, length_mk, List.length_take]
    · simp only [resolve_abstract]
      split
      · simp [length_mk, List.length_take]
      · exact extract_abstract_length _ _ _ h
  · exact normalize_abstract_length_le


/-- A dict entry after an assignment is an old entry or the new binding. -/
theorem mem_py_dict_insert {β : Type} {m : List (String × β)} {k : String} {v : β} {kv}
    (h : kv ∈ py_dict_insert m k v) : kv ∈ m ∨ kv = (k, v) := by
  unfold py_dict_insert at h
  split at h
  · rcases List.mem_map.mp h with ⟨kv0, hkv0, heq⟩
    split at heq
    · exact Or.inr heq.symm
    · exact Or.inl (heq ▸ hkv0)
  · rcases List.mem_append.mp h with h | h
    · exact Or.inl h
    · exact Or.inr (List.mem_singleton.mp h)

/-- Assigning a key not yet present appends the binding. -/
theorem py_dict_insert_fresh {β : Type} {m : List (String × β)} {k : String} {v : β}
    (h : (m.any fun kv => kv.1 == k) = false) : py_dict_insert m k v = m ++ [(k, v)] := by
  unfold py_dict_insert
  rw [if_neg (by simp [h])]

/-- Merging records with pairwise-distinct fresh keys appends their
bindings in order. -/
theorem fold_insert_append (rs : List PaperRecord) (acc : List (String × PaperRecord))
    (hfresh : ∀ r ∈ rs, (acc.any fun kv => kv.1 == r.pdf_path) = false)
    (hnd : (rs.map fun r => r.pdf_path).Nodup) :
    rs.foldl (fun acc r => py_dict_insert acc r.pdf_path r) acc
      = acc ++ rs.map fun r => (r.pdf_path, r) := by
  induction rs generalizing acc with
  | nil => simp
  | cons r rs ih =>
    simp only [List.foldl]
    rw [py_dict_insert_fresh (hfresh r (List.mem_cons_self r rs))]
    rw [List.map_cons, List.nodup_cons] at hnd
    rw [ih (acc ++ [(r.pdf_path, r)]) ?_ hnd.2]
    · simp
    · intro r2 hr2
      rw [List.any_append]
      have h1 := hfresh r2 (List.mem_cons_of_mem _ hr2)
      have h2 : r.pdf_path ≠ r2.pdf_path := by
        intro he
        exact hnd.1 (he ▸ List.mem_map_of_mem (fun r => r.pdf_path) hr2)
      simp [h1, h2]

/-- A dict assignment keyed by the record's own non-empty path preserves
the index-map invariant. -/
theorem goodMap_insert {m : List (String × PaperRecord)} {k : String} {v : PaperRecord}
    (hm : goodMap m) (hv : v.pdf_path = k) (hk : k ≠ "") :
    goodMap (py_dict_insert m k v) := by
  unfold py_dict_insert
  split
  · constructor
    · have : ((m.map fun kv => if kv.1 == k then (k, v) else kv).map fun kv => kv.1)
          = m.map fun kv => kv.1 := by
        rw [List.map_map]
        refine List.map_congr_left fun kv _ => ?_
        by_cases hkk : kv.1 = k
        · simp [hkk]
        · simp [hkk]
      rw [this]
      exact hm.1
    · intro kv hkv
      rcases List.mem_map.mp hkv with ⟨kv0, hkv0, heq⟩
      split at heq
      · exact heq ▸ ⟨hv, hk⟩
      · exact heq ▸ hm.2 kv0 hkv0
  · constructor
    · rw [List.map_append, List.nodup_append]
      refine ⟨hm.1, by simp, ?_⟩
      intro x hx hx2
      simp only [List.map_cons, List.map_nil, List.mem_singleton] at hx2
      subst hx2
      rename_i hnotany
      rcases List.mem_map.mp hx with ⟨kv0, hkv0, heq⟩
      exact hnotany (List.any_eq_true.mpr ⟨kv0, hkv0, by simp [heq]⟩)
    · intro kv hkv
      rcases List.mem_append.mp hkv with h | h
      · exact hm.2 kv h
      · rw [List.mem_singleton.mp h]
        exact ⟨hv, hk⟩

/-- The loaded index map always satisfies the invariant. -/
theorem load_existing_goodMap (items : List PaperRecord) :
    goodMap (load_existing_records items) := by
  unfold load_existing_records
  have aux : ∀ (rs : List PaperRecord) (acc : List (String × PaperRecord)),
      goodMap acc → (∀ r ∈ rs, r.pdf_path ≠ "") →
      goodMap (rs.foldl (fun acc r => py_dict_insert acc r.pdf_path r) acc) := by
    intro rs
    induction rs with
    | nil => exact fun acc h _ => h
    | cons r rs ih =>
      intro acc hacc hne
      simp only [List.foldl]
      exact ih _ (goodMap_insert hacc rfl (hne r (List.mem_cons_self r rs)))
        fun x hx => hne x (List.mem_cons_of_mem _ hx)
  refine aux _ [] ⟨List.nodup_nil, by simp⟩ fun r hr => ?_
  simpa using (List.mem_filter.mp hr).2

/-- Every record of the loaded index map comes from the persisted list. -/
theorem mem_load_existing {items : List PaperRecord} {kv : String × PaperRecord}
    (h : kv ∈ load_existing_records items) : kv.2 ∈ items := by
  unfold load_existing_records at h
  have aux : ∀ (rs : List PaperRecord) (acc : List (String × PaperRecord)),
      (∀ kv ∈ acc, kv.2 ∈ items) → (∀ r ∈ rs, r ∈ items) →
      ∀ kv ∈ rs.foldl (fun acc r => py_dict_insert acc r.pdf_path r) acc, kv.2 ∈ items := by
    intro rs
    induction rs with
    | nil => exact fun acc hacc _ => hacc
    | cons r rs ih =>
      intro acc hacc hrs
      simp only [List.foldl]
      refine ih _ (fun kv hkv => ?_) fun x hx => hrs x (List.mem_cons_of_mem _ hx)
      rcases mem_py_dict_insert hkv with h | h
      · exact hacc kv h
      · rw [h]
        exact hrs r (List.mem_cons_self r rs)
  refine aux _ [] (by simp) (fun r hr => (List.mem_filter.mp hr).1) kv h

/-- Loading a list of records with non-empty pairwise-distinct paths gives
exactly the path-keyed association list. -/
theorem load_of_goodList (items : List PaperRecord)
    (hne : ∀ r ∈ items, r.pdf_path ≠ "") (hnd : (items.map fun r => r.pdf_path).Nodup) :
    load_existing_records items = items.map fun r => (r.pdf_path, r) := by
  unfold load_existing_records
  rw [List.filter_eq_self.mpr fun r hr => by simpa using hne r hr]
  rw [fold_insert_append items [] (fun r _ => rfl) hnd]
  simp

/-- Sorting by title permutes the records. -/
theorem sortByTitle_perm (l : List PaperRecord) : List.Perm (sortByTitle l) l :=
  List.perm_insertionSort _ _

/-- Sorting by title sorts by title. -/
theorem sortByTitle_sorted (l : List PaperRecord) :
    List.Sorted (fun a b : PaperRecord => a.title ≤ b.title) (sortByTitle l) := by
  haveI : IsTotal PaperRecord (fun a b : PaperRecord => a.title ≤ b.title) :=
    ⟨fun a b => le_total a.title b.title⟩
  haveI : IsTrans PaperRecord (fun a b : PaperRecord => a.title ≤ b.title) :=
    ⟨fun _ _ _ h1 h2 => le_trans h1 h2⟩
  exact List.sorted_insertionSort _ _

/-- Sorting a title-sorted list leaves it unchanged. -/
theorem sortByTitle_of_sorted {l : List PaperRecord}
    (h : List.Sorted (fun a b : PaperRecord => a.title ≤ b.title) l) : sortByTitle l = l :=
  List.Sorted.insertionSort_eq h

/-- The keys of the extracted records are the successfully processed
paths, in order. -/
theorem filterMap_keys (T : List String) (process : String → Option PaperRecord)
    (hpr : ∀ p r, process p = some r → r.pdf_path = p) :
    ((T.filterMap process).map fun r => r.pdf_path)
      = T.filter fun p => (process p).isSome := by
  induction T with
  | nil => rfl
  | cons p T ih =>
    rcases hp : process p with _ | r
    · simpa [List.filterMap_cons, hp] using ih
    · simp only [List.filterMap_cons, hp, List.map_cons, List.filter_cons]
      rw [hpr p r hp, ih]
      simp

/-- Unfolding equation for `ingest_body`. -/
theorem ingest_body_eq (persisted : List PaperRecord) (paths : List String)
    (process : String → Option PaperRecord) :
    ingest_body persisted paths process =
      if (skip_already_indexed (load_existing_records persisted) paths).isEmpty then persisted
      else sortByTitle
        ((((skip_already_indexed (load_existing_records persisted) paths).filterMap
            process).foldl
          (fun acc r => py_dict_insert acc r.pdf_path r) (load_existing_records persisted)).map
          fun kv => kv.2) := rfl

/-- C4: re-ingestion is idempotent.  Over discovered paths that are
pairwise distinct and non-empty, with extraction keying each record by its
own path: running `ingest_body` a second time over the unchanged directory
leaves the persisted index identical; every path already present as a key
in the loaded index is excluded from processing; an existing record is
never overwritten (it survives into the output) nor duplicated (output
keys stay pairwise distinct, given a well-formed existing index). -/
theorem c4_reingest_idempotent (persisted : List PaperRecord) (pdf_paths : List String)
    (process : String → Option PaperRecord)
    (hnd : pdf_paths.Nodup)
    (hne : ∀ p ∈ pdf_paths, p ≠ "")
    (hpn : (persisted.map fun r => r.pdf_path).Nodup)
    (hpr : ∀ p r, process p = some r → r.pdf_path = p) :
    ingest_body (ingest_body persisted pdf_paths process) pdf_paths process
      = ingest_body persisted pdf_paths process ∧
    (∀ p, ((load_existing_records persisted).any fun kv => kv.1 == p) = true →
      p ∉ skip_already_indexed (load_existing_records persisted) pdf_paths) ∧
    (∀ kv ∈ load_existing_records persisted,
      kv.2 ∈ ingest_body persisted pdf_paths process) ∧
    ((ingest_body persisted pdf_paths process).map fun r => r.pdf_path).Nodup := by
  have hexcl : ∀ p, ((load_existing_records persisted).any fun kv => kv.1 == p) = true →
      p ∉ skip_already_indexed (load_existing_records persisted) pdf_paths := by
    intro p hp hmem
    unfold skip_already_indexed at hmem
    have := List.mem_filter.mp hmem
    simp [hp] at this
  have hE : goodMap (load_existing_records persisted) := load_existing_goodMap persisted
  by_cases hT : (skip_already_indexed (load_existing_records persisted) pdf_paths).isEmpty = true
  · have hrun : ingest_body persisted pdf_paths process = persisted := by
      rw [ingest_body_eq, if_pos hT]
    refine ⟨?_, hexcl, ?_, ?_⟩
    · rw [hrun, hrun]
    · intro kv hkv
      rw [hrun]
      exact mem_load_existing hkv
    · rw [hrun]
      exact hpn
  · -- non-trivial run: something was processed (or attempted)
    have hTnd : (skip_already_indexed (load_existing_records persisted) pdf_paths).Nodup :=
      hnd.filter _
    have hRkeys : (((skip_already_indexed (load_existing_records persisted)
          pdf_paths).filterMap process).map fun r => r.pdf_path)
        = (skip_already_indexed (load_existing_records persisted) pdf_paths).filter
            fun p => (process p).isSome :=
      filterMap_keys _ process hpr
    have hRnd : ((((skip_already_indexed (load_existing_records persisted)
          pdf_paths).filterMap process)).map fun r => r.pdf_path).Nodup := by
      rw [hRkeys]
      exact hTnd.filter _
    have hfreshE : ∀ r ∈ (skip_already_indexed (load_existing_records persisted)
          pdf_paths).filterMap process,
        ((load_existing_records persisted).any fun kv => kv.1 == r.pdf_path) = false := by
      intro r hr
      rcases List.mem_filterMap.mp hr with ⟨p, hpT, hpp⟩
      rw [hpr p r hpp]
      have := List.mem_filter.mp hpT
      simpa using this.2
    have hM : ((skip_already_indexed (load_existing_records persisted)
            pdf_paths).filterMap process).foldl
          (fun acc r => py_dict_insert acc r.pdf_path r) (load_existing_records persisted)
        = load_existing_records persisted
          ++ ((skip_already_indexed (load_existing_records persisted)
              pdf_paths).filterMap process).map fun r => (r.pdf_path, r) :=
      fold_insert_append _ _ hfreshE hRnd
    have hrun1 : ingest_body persisted pdf_paths process
        = sortByTitle ((load_existing_records persisted
            ++ ((skip_already_indexed (load_existing_records persisted)
                pdf_paths).filterMap process).map fun r => (r.pdf_path, r)).map
              fun kv => kv.2) := by
      rw [ingest_body_eq, if_neg (by simp [hT]), hM]
    set P1 := sortByTitle ((load_existing_records persisted
        ++ ((skip_already_indexed (load_existing_records persisted)
            pdf_paths).filterMap process).map fun r => (r.pdf_path, r)).map
          fun kv => kv.2) with hP1def
    have hMgood : goodMap (load_existing_records persisted
        ++ ((skip_already_indexed (load_existing_records persisted)
            pdf_paths).filterMap process).map fun r => (r.pdf_path, r)) := by
      constructor
      · rw [List.map_append, List.nodup_append]
        refine ⟨hE.1, ?_, ?_⟩
        · have heq : ((((skip_already_indexed (load_existing_records persisted)
                pdf_paths).filterMap process).map fun r => (r.pdf_path, r)).map
                fun kv => kv.1)
              = ((skip_already_indexed (load_existing_records persisted)
                pdf_paths).filterMap process).map fun r => r.pdf_path := by
            simp [List.map_map]
          rw [heq]
          exact hRnd
        · intro k hkE hkR
          simp only [List.map_map] at hkR
          rcases List.mem_map.mp hkR with ⟨r, hrR, hrk⟩
          rcases List.mem_map.mp hkE with ⟨kv, hkvE, hkvk⟩
          have hfresh := hfreshE r hrR
          have hrk2 : r.pdf_path = k := hrk
          have : ((load_existing_records persisted).any fun kv2 => kv2.1 == r.pdf_path)
              = true :=
            List.any_eq_true.mpr ⟨kv, hkvE, by simp [hkvk, hrk2]⟩
          rw [hfresh] at this
          exact Bool.false_ne_true this
      · intro kv hkv
        rcases List.mem_append.mp hkv with h | h
        · exact hE.2 kv h
        · rcases List.mem_map.mp h with ⟨r, hrR, heq⟩
          rcases List.mem_filterMap.mp hrR with ⟨p, hpT, hpp⟩
          have hp2 : p ∈ pdf_paths := (List.mem_filter.mp hpT).1
          have : r.pdf_path = p := hpr p r hpp
          exact heq ▸ ⟨rfl, by simpa [this] using hne p hp2⟩
    have hP1perm : List.Perm P1 ((load_existing_records persisted
        ++ ((skip_already_indexed (load_existing_records persisted)
            pdf_paths).filterMap process).map fun r => (r.pdf_path, r)).map
          fun kv => kv.2) := sortByTitle_perm _
    have hP1entries : ∀ rec ∈ P1, rec.pdf_path ≠ "" := by
      intro rec hrec
      rcases List.mem_map.mp (hP1perm.mem_iff.mp hrec) with ⟨kv, hkvM, heq⟩
      have h2 := hMgood.2 kv hkvM
      rw [← heq, h2.1]
      exact h2.2
    have hMsndkeys : (((load_existing_records persisted
        ++ ((skip_already_indexed (load_existing_records persisted)
            pdf_paths).filterMap process).map fun r => (r.pdf_path, r)).map
          fun kv => kv.2).map fun r => r.pdf_path)
        = (load_existing_records persisted
        ++ ((skip_already_indexed (load_existing_records persisted)
            pdf_paths).filterMap process).map fun r => (r.pdf_path, r)).map
          fun kv => kv.1 := by
      rw [List.map_map]
      exact List.map_congr_left fun kv hkv => (hMgood.2 kv hkv).1
    have hP1keysnd : (P1.map fun r => r.pdf_path).Nodup := by
      have h1 := hP1perm.map fun r => r.pdf_path
      rw [hMsndkeys] at h1
      exact h1.nodup_iff.mpr hMgood.1
    have hE1 : load_existing_records P1 = P1.map fun r => (r.pdf_path, r) :=
      load_of_goodList P1 hP1entries hP1keysnd
    have hT2none : ∀ p ∈ skip_already_indexed (load_existing_records P1) pdf_paths,
        process p = none := by
      intro p hp
      have hmem := List.mem_filter.mp hp
      by_contra hcp
      rcases Option.ne_none_iff_exists'.mp hcp with ⟨r, hr⟩
      have hkeyM : ∃ kv ∈ (load_existing_records persisted
          ++ ((skip_already_indexed (load_existing_records persisted)
              pdf_paths).filterMap process).map fun r => (r.pdf_path, r)), kv.1 = p := by
        by_cases hpE : ((load_existing_records persisted).any fun kv => kv.1 == p) = true
        · rcases List.any_eq_true.mp hpE with ⟨kv, hkv, hkvp⟩
          exact ⟨kv, List.mem_append_left _ hkv, by simpa using hkvp⟩
        · have hpT : p ∈ skip_already_indexed (load_existing_records persisted) pdf_paths := by
            unfold skip_already_indexed
            refine List.mem_filter.mpr ⟨hmem.1, ?_⟩
            rw [Bool.not_eq_true] at hpE
            simp [hpE]
          have hrR : r ∈ (skip_already_indexed (load_existing_records persisted)
              pdf_paths).filterMap process :=
            List.mem_filterMap.mpr ⟨p, hpT, hr⟩
          exact ⟨(r.pdf_path, r), List.mem_append_right _ (List.mem_map_of_mem _ hrR),
            hpr p r hr⟩
      rcases hkeyM with ⟨kv, hkvM, hkvp⟩
      have hrecP1 : kv.2 ∈ P1 := hP1perm.mem_iff.mpr (List.mem_map_of_mem _ hkvM)
      have hany : ((load_existing_records P1).any fun kv2 => kv2.1 == p) = true := by
        rw [hE1]
        refine List.any_eq_true.mpr ⟨(kv.2.pdf_path, kv.2), List.mem_map_of_mem _ hrecP1, ?_⟩
        have := hMgood.2 kv hkvM
        simp [this.1, hkvp]
      rw [hany] at hmem
      simp at hmem
    have hR2 : (skip_already_indexed (load_existing_records P1) pdf_paths).filterMap process
        = [] := by
      rw [List.filterMap_eq_nil_iff]
      exact hT2none
    have hP1sorted : List.Sorted (fun a b : PaperRecord => a.title ≤ b.title) P1 := by
      rw [hP1def]
      exact sortByTitle_sorted _
    have hrun2 : ingest_body P1 pdf_paths process = P1 := by
      by_cases hT2 : (skip_already_indexed (load_existing_records P1) pdf_paths).isEmpty = true
      · rw [ingest_body_eq, if_pos hT2]
      · rw [ingest_body_eq, if_neg (by simp [hT2]), hR2, List.foldl_nil, hE1]
        have hcollapse : ((P1.map fun r => (r.pdf_path, r)).map fun kv => kv.2) = P1 := by
          rw [List.map_map]
          show List.map (fun r => r) P1 = P1
          simp
        rw [hcollapse]
        exact sortByTitle_of_sorted hP1sorted
    refine ⟨?_, hexcl, ?_, ?_⟩
    · rw [hrun1, hrun2]
    · intro kv hkv
      rw [hrun1]
      exact hP1perm.mem_iff.mpr (List.mem_map_of_mem _ (List.mem_append_left _ hkv))
    · rw [hrun1]
      exact hP1keysnd

/-- C4 witness: the statement instantiated at an empty persisted index,
one discovered path and an extractor producing `recA` for it. -/
theorem c4_reingest_idempotent_witness :
    ingest_body (ingest_body [] ["a.pdf"] c4proc) ["a.pdf"] c4proc
      = ingest_body [] ["a.pdf"] c4proc ∧
    (∀ p, ((load_existing_records []).any fun kv => kv.1 == p) = true →
      p ∉ skip_already_indexed (load_existing_records []) ["a.pdf"]) ∧
    (∀ kv ∈ load_existing_records [], kv.2 ∈ ingest_body [] ["a.pdf"] c4proc) ∧
    ((ingest_body [] ["a.pdf"] c4proc).map fun r => r.pdf_path).Nodup := by
  refine c4_reingest_idempotent [] ["a.pdf"] c4proc (by decide) (by decide) (by decide) ?_
  intro p r h
  unfold c4proc at h
  split at h
  · rename_i hp
    cases h
    rw [hp]
    rfl
  · exact Option.noConfusion h


/-- Supporting lemma for the title-case development (C7). -/
theorem groupRuns_cons (c : Char) (cs : List Char) :
    groupRuns (c :: cs) =
      match groupRuns cs with
      | [] => [[c]]
      | [] :: gs => [c] :: [] :: gs
      | (d :: g) :: gs =>
        if pyIsSpace c = pyIsSpace d then (c :: d :: g) :: gs else [c] :: (d :: g) :: gs := rfl

/-- Supporting lemma for the title-case development (C7). -/
theorem groupRuns_cons_shape (d : Char) (ys : List Char) :
    ∃ g gs, groupRuns (d :: ys) = (d :: g) :: gs := by
  rw [groupRuns_cons]
  rcases groupRuns ys with _ | ⟨g, gs⟩
  · exact ⟨[], [], rfl⟩
  · cases g with
    | nil => exact ⟨[], [] :: gs, rfl⟩
    | cons e g2 =>
      by_cases h : pyIsSpace d = pyIsSpace e
      · exact ⟨e :: g2, gs, by simp [h]⟩
      · exact ⟨[], (e :: g2) :: gs, by simp [h]⟩

/-- Supporting lemma for the title-case development (C7). -/
theorem groupRuns_append (b : Bool) (w rest : List Char) (hne : w ≠ [])
    (hw : ∀ c ∈ w, pyIsSpace c = b)
    (hrest : rest = [] ∨ ∃ d ds, rest = d :: ds ∧ pyIsSpace d = !b) :
    groupRuns (w ++ rest) = w :: groupRuns rest := by
  induction w with
  | nil => exact absurd rfl hne
  | cons c w ih =>
    cases w with
    | nil =>
      simp only [List.cons_append, List.nil_append]
      rcases hrest with h | ⟨d, ds, hds, hd⟩
      · subst h
        rfl
      · subst hds
        rcases groupRuns_cons_shape d ds with ⟨g, gs, hg⟩
        have hc : pyIsSpace c = b := hw c (by simp)
        have hne2 : ¬(pyIsSpace c = pyIsSpace d) := by
          rw [hc, hd]
          cases b <;> simp
        rw [groupRuns_cons, hg]
        simp [hne2]
    | cons c2 w2 =>
      have hih := ih (by simp) (fun x hx => hw x (List.mem_cons_of_mem _ hx))
      have hc : pyIsSpace c = b := hw c (by simp)
      have hc2 : pyIsSpace c2 = b := hw c2 (by simp)
      simp only [List.cons_append] at hih ⊢
      rw [groupRuns_cons, hih]
      simp [hc, hc2]



/-- Supporting lemma for the title-case development (C7). -/
theorem dropWhile_head_not {p : Char → Bool} {l : List Char} {d : Char} {ds : List Char}
    (h : l.dropWhile p = d :: ds) : p d = false := by
  induction l with
  | nil => simp at h
  | cons c cs ih =>
    rw [List.dropWhile_cons] at h
    split at h
    · exact ih h
    · rw [List.cons_eq_cons] at h
      rename_i hc
      rw [← h.1]
      exact Bool.not_eq_true _ ▸ hc

/-- Supporting lemma for the title-case development (C7). -/
theorem getLast?_append_right {l1 l2 : List Char} (h : l2 ≠ []) :
    (l1 ++ l2).getLast? = l2.getLast? := by
  rw [List.getLast?_append]
  rcases hx : l2.getLast? with _ | x
  · exact absurd (List.getLast?_eq_none_iff.mp hx) h
  · rfl

/-- Supporting lemma for the title-case development (C7). -/
theorem getLast?_mem : ∀ {l : List Char} {c : Char}, l.getLast? = some c → c ∈ l := by
  intro l
  induction l with
  | nil => intro c h; simp at h
  | cons a l ih =>
    intro c h
    cases l with
    | nil =>
      simp at h
      simp [h]
    | cons b l2 =>
      rw [List.getLast?_cons_cons] at h
      exact List.mem_cons_of_mem _ (ih h)

/-- Supporting lemma for the title-case development (C7). -/
theorem altChain_groupRuns : ∀ (n : Nat) (l : List Char), l.length ≤ n → l ≠ [] →
    (∀ c, l.head? = some c → pyIsSpace c = false) →
    (∀ c, l.getLast? = some c → pyIsSpace c = false) →
    AltChain (groupRuns l) := by
  intro n
  induction n with
  | zero =>
    intro l hlen hne _ _
    rw [Nat.le_zero, List.length_eq_zero] at hlen
    exact absurd hlen hne
  | succ n ih =>
    intro l hlen hne hh hl
    obtain ⟨c, cs, rfl⟩ := List.exists_cons_of_ne_nil hne
    have hc : pyIsSpace c = false := hh c rfl
    have hwcons : (c :: cs).takeWhile (fun x => !pyIsSpace x) =
        c :: cs.takeWhile (fun x => !pyIsSpace x) :=
      List.takeWhile_cons_of_pos (by simp [hc])
    have hsplit : (c :: cs).takeWhile (fun x => !pyIsSpace x)
        ++ (c :: cs).dropWhile (fun x => !pyIsSpace x) = c :: cs :=
      List.takeWhile_append_dropWhile _ _
    have hwmem : ∀ x ∈ (c :: cs).takeWhile (fun x => !pyIsSpace x), pyIsSpace x = false := by
      intro x hx
      have := List.mem_takeWhile_imp hx
      simpa using this
    rcases hrest : (c :: cs).dropWhile (fun x => !pyIsSpace x) with _ | ⟨d, ds⟩
    · rw [hrest, List.append_nil] at hsplit
      have hallmem : ∀ x ∈ (c :: cs), pyIsSpace x = false := by
        intro x hx
        exact hwmem x (by rw [hsplit]; exact hx)
      have hgr : groupRuns (c :: cs) = [c :: cs] := by
        have := groupRuns_append false (c :: cs) [] (by simp) hallmem (Or.inl rfl)
        simpa using this
      rw [hgr]
      exact AltChain.single _ (by simp) hallmem
    · have hd : pyIsSpace d = true := by
        have := dropWhile_head_not hrest
        simpa using this
      have hscons : (d :: ds).takeWhile pyIsSpace = d :: ds.takeWhile pyIsSpace :=
        List.takeWhile_cons_of_pos hd
      have hsplit2 : (d :: ds).takeWhile pyIsSpace ++ (d :: ds).dropWhile pyIsSpace
          = d :: ds := List.takeWhile_append_dropWhile _ _
      have hsmem : ∀ x ∈ (d :: ds).takeWhile pyIsSpace, pyIsSpace x = true :=
        fun x hx => List.mem_takeWhile_imp hx
      rcases hrem : (d :: ds).dropWhile pyIsSpace with _ | ⟨e, es⟩
      · -- the string would end in whitespace, contradicting the stripped last character
        rw [hrem, List.append_nil] at hsplit2
        have hlast : (c :: cs).getLast? = (d :: ds).getLast? := by
          conv_lhs => rw [← hsplit, hrest]
          exact getLast?_append_right (by simp)
        obtain ⟨x, hx⟩ : ∃ x, (d :: ds).getLast? = some x := by
          rcases h : (d :: ds).getLast? with _ | x
          · exact absurd (List.getLast?_eq_none_iff.mp h) (by simp)
          · exact ⟨x, rfl⟩
        have hxmem : x ∈ d :: ds := getLast?_mem hx
        have hxws : pyIsSpace x = true := by
          rw [← hsplit2] at hxmem
          exact hsmem x hxmem
        have := hl x (by rw [hlast]; exact hx)
        rw [this] at hxws
        exact (Bool.false_ne_true hxws).elim
      · have he : pyIsSpace e = false := by
          have := dropWhile_head_not hrem
          simpa using this
        -- length bookkeeping
        have hlen1 : (c :: cs).length = ((c :: cs).takeWhile (fun x => !pyIsSpace x)).length
            + ((d :: ds).takeWhile pyIsSpace).length + (e :: es).length := by
          conv_lhs => rw [← hsplit, hrest]
          conv_lhs => rw [show (d :: ds : List Char) = (d :: ds).takeWhile pyIsSpace
            ++ (d :: ds).dropWhile pyIsSpace from (List.takeWhile_append_dropWhile _ _).symm,
            hrem]
          simp [List.length_append]
          omega
        have hrem_len : (e :: es).length ≤ n := by
          rw [hwcons] at hlen1
          rw [hscons] at hlen1
          simp only [List.length_cons] at hlen1 hlen ⊢
          omega
        have h1 : (c :: cs : List Char)
            = (c :: cs).takeWhile (fun x => !pyIsSpace x) ++ (d :: ds) := by
          rw [← hrest, List.takeWhile_append_dropWhile]
        have h2 : (d :: ds : List Char) = (d :: ds).takeWhile pyIsSpace ++ (e :: es) := by
          rw [← hrem, List.takeWhile_append_dropWhile]
        have hrem_last : (e :: es).getLast? = (c :: cs).getLast? := by
          rw [h1, h2, getLast?_append_right (by simp), getLast?_append_right (by simp)]
        have hih := ih (e :: es) hrem_len (by simp)
          (fun x hx => by rw [List.head?_cons, Option.some_inj] at hx; rw [← hx]; exact he)
          (fun x hx => hl x (by rw [← hrem_last]; exact hx))
        rw [h1]
        rw [groupRuns_append false _ _ (by rw [hwcons]; simp)
          (fun x hx => hwmem x hx) (Or.inr ⟨d, ds, rfl, by rw [hd]; rfl⟩)]
        rw [h2]
        rw [groupRuns_append true _ _ (by rw [hscons]; simp)
          (fun x hx => hsmem x hx) (Or.inr ⟨e, es, rfl, by rw [he]; rfl⟩)]
        exact AltChain.cons _ _ _ (by rw [hwcons]; simp) hwmem (by rw [hscons]; simp) hsmem hih

/-- Supporting lemma for the title-case development (C7). -/
theorem toLower_of_space {c : Char} (h : pyIsSpace c = true) : c.toLower = c := by
  apply char_eq_of_toNat_eq
  have e1 := toLower_toNat c
  rw [pyIsSpace_iff_toNat] at h
  split at e1 <;> omega

/-- Supporting lemma for the title-case development (C7). -/
theorem lowerL_append (a b : List Char) : lowerL (a ++ b) = lowerL a ++ lowerL b :=
  List.map_append _ a b

/-- Supporting lemma for the title-case development (C7). -/
theorem lowerL_lowerL (l : List Char) : lowerL (lowerL l) = lowerL l := by
  unfold lowerL
  rw [List.map_map]
  exact List.map_congr_left fun c _ => toLower_toLower c

/-- Supporting lemma for the title-case development (C7). -/
theorem lowerL_length (l : List Char) : (lowerL l).length = l.length := List.length_map _ _

/-- Supporting lemma for the title-case development (C7). -/
theorem lowerL_of_spaces {l : List Char} (h : ∀ c ∈ l, pyIsSpace c = true) :
    lowerL l = l := by
  have : ∀ c ∈ l, c.toLower = c := fun c hc => toLower_of_space (h c hc)
  unfold lowerL
  calc l.map Char.toLower = l.map id := List.map_congr_left fun c hc => this c hc
    _ = l := List.map_id l

/-- Supporting lemma for the title-case development (C7). -/
theorem splitOnCharL_cons (sep c : Char) (cs : List Char) :
    splitOnCharL sep (c :: cs) =
      match splitOnCharL sep cs with
      | [] => [[c]]
      | h :: t => if c = sep then [] :: h :: t else (c :: h) :: t := rfl

/-- Supporting lemma for the title-case development (C7). -/
theorem splitOnCharL_ne_nil (sep : Char) (l : List Char) : splitOnCharL sep l ≠ [] := by
  cases l with
  | nil => simp [splitOnCharL]
  | cons c cs =>
    rw [splitOnCharL_cons]
    rcases hs : splitOnCharL sep cs with _ | ⟨h, t⟩
    · simp
    · split
      · simp
      · split <;> simp

/-- Supporting lemma for the title-case development (C7). -/
theorem splitOnCharL_sep_free (sep : Char) : ∀ (l : List Char), ∀ g ∈ splitOnCharL sep l,
    sep ∉ g := by
  intro l
  induction l with
  | nil =>
    intro g hg
    simp [splitOnCharL] at hg
    simp [hg]
  | cons c cs ih =>
    intro g hg
    rw [splitOnCharL_cons] at hg
    rcases hs : splitOnCharL sep cs with _ | ⟨h, t⟩
    · exact absurd hs (splitOnCharL_ne_nil sep cs)
    · rw [hs] at hg
      have hg2 : g ∈ (if c = sep then ([] : List Char) :: h :: t else (c :: h) :: t) := hg
      by_cases hc : c = sep
      · rw [if_pos hc] at hg2
        rcases List.mem_cons.mp hg2 with hg3 | hg3
        · subst hg3
          simp
        · exact ih g (hs ▸ hg3)
      · rw [if_neg hc] at hg2
        rcases List.mem_cons.mp hg2 with hg3 | hg3
        · subst hg3
          intro hmem
          rcases List.mem_cons.mp hmem with he | he
          · exact hc he.symm
          · exact ih h (hs ▸ List.mem_cons_self h t) he
        · exact ih g (hs ▸ List.mem_cons_of_mem h hg3)

/-- Supporting lemma for the title-case development (C7). -/
theorem splitOnCharL_of_sep_free {sep : Char} {q : List Char} (h : sep ∉ q) :
    splitOnCharL sep q = [q] := by
  induction q with
  | nil => rfl
  | cons c q ih =>
    have hc : ¬(c = sep) := fun he => h (he ▸ List.mem_cons_self c q)
    have hq := ih fun hm => h (List.mem_cons_of_mem c hm)
    rw [splitOnCharL_cons, hq]
    simp [hc]

/-- Supporting lemma for the title-case development (C7). -/
theorem splitOnCharL_append_sep (sep : Char) (q rest : List Char) (hq : sep ∉ q) :
    splitOnCharL sep (q ++ sep :: rest) = q :: splitOnCharL sep rest := by
  induction q with
  | nil =>
    rw [List.nil_append, splitOnCharL_cons]
    rcases hs : splitOnCharL sep rest with _ | ⟨h, t⟩
    · exact absurd hs (splitOnCharL_ne_nil sep rest)
    · simp
  | cons c q ih =>
    have hc : ¬(c = sep) := fun he => hq (he ▸ List.mem_cons_self c q)
    have hih := ih fun hm => hq (List.mem_cons_of_mem c hm)
    rw [List.cons_append, splitOnCharL_cons, hih]
    simp [hc]

/-- Supporting lemma for the title-case development (C7). -/
theorem splitOnCharL_joinSep (sep : Char) (qs : List (List Char)) (hne : qs ≠ [])
    (hfree : ∀ q ∈ qs, sep ∉ q) :
    splitOnCharL sep (joinSep [sep] qs) = qs := by
  induction qs with
  | nil => exact absurd rfl hne
  | cons q qs ih =>
    cases qs with
    | nil =>
      simp only [joinSep]
      exact splitOnCharL_of_sep_free (hfree q (by simp))
    | cons q2 qs2 =>
      have hj : joinSep [sep] (q :: q2 :: qs2) = q ++ sep :: joinSep [sep] (q2 :: qs2) := by
        simp [joinSep]
      rw [hj, splitOnCharL_append_sep sep _ _ (hfree q (by simp)),
        ih (by simp) (fun x hx => hfree x (List.mem_cons_of_mem q hx))]

/-- Supporting lemma for the title-case development (C7). -/
theorem lowerL_joinSep (sep : Char) (hsep : sep.toLower = sep) (qs : List (List Char)) :
    lowerL (joinSep [sep] qs) = joinSep [sep] (qs.map lowerL) := by
  induction qs with
  | nil => rfl
  | cons q qs ih =>
    cases qs with
    | nil => rfl
    | cons q2 qs2 =>
      simp only [joinSep, List.map_cons, lowerL_append] at ih ⊢
      rw [ih]
      simp [lowerL, hsep]

/-- Supporting lemma for the title-case development (C7). -/
theorem titlePart_length (fw : Bool) (p : List Char) :
    (titlePart fw p).length = p.length := by
  simp only [titlePart]
  split
  · rw [capFirst_length, lowerL_length]
  · exact lowerL_length p

/-- Supporting lemma for the title-case development (C7). -/
theorem lowerL_capFirst_lowerL (p : List Char) :
    lowerL (capFirst (lowerL p)) = lowerL p := by
  cases p with
  | nil => rfl
  | cons c cs =>
    show (c.toLower.toUpper.toLower :: lowerL (lowerL cs)) = c.toLower :: lowerL cs
    rw [toLower_toUpper_toLower, lowerL_lowerL]

/-- Supporting lemma for the title-case development (C7). -/
theorem lowerL_titlePart (fw : Bool) (p : List Char) :
    lowerL (titlePart fw p) = lowerL p := by
  simp only [titlePart]
  split
  · exact lowerL_capFirst_lowerL p
  · exact lowerL_lowerL p

/-- Supporting lemma for the title-case development (C7). -/
theorem titlePart_idem (fw : Bool) (p : List Char) :
    titlePart fw (lowerL (titlePart fw p)) = titlePart fw p := by
  by_cases hcond : (fw || !(SMALL_WORDS.contains (String.mk (lowerL p)))) = true
  · have h1 : titlePart fw p = capFirst (lowerL p) := by
      simp only [titlePart]
      rw [if_pos hcond]
    rw [h1, lowerL_capFirst_lowerL]
    simp only [titlePart]
    rw [lowerL_lowerL, if_pos hcond]
  · have h1 : titlePart fw p = lowerL p := by
      simp only [titlePart]
      rw [if_neg hcond]
    rw [h1, lowerL_lowerL]
    simp only [titlePart]
    rw [lowerL_lowerL, if_neg hcond]

/-- Supporting lemma for the title-case development (C7). -/
theorem titleParts_reproc (ps : List (List Char)) : ∀ fw : Bool,
    titleParts fw ((titleParts fw ps).map lowerL) = titleParts fw ps := by
  induction ps with
  | nil => exact fun fw => rfl
  | cons p ps ih =>
    intro fw
    by_cases hp : p = []
    · subst hp
      simp only [titleParts, if_pos rfl]
      exact ih fw
    · simp only [titleParts, if_neg hp]
      have hne2 : ¬(lowerL (titlePart fw p) = []) := by
        intro he
        apply hp
        have hlen := congrArg List.length he
        rw [lowerL_length, titlePart_length] at hlen
        exact List.length_eq_zero.mp hlen
      simp only [List.map_cons, titleParts, if_neg hne2]
      rw [titlePart_idem, ih false]

/-- Supporting lemma for the title-case development (C7). -/
theorem titleParts_mem {fw : Bool} {ps : List (List Char)} {q : List Char}
    (hq : q ∈ titleParts fw ps) : ∃ b p, p ∈ ps ∧ p ≠ [] ∧ q = titlePart b p := by
  induction ps generalizing fw with
  | nil => simp [titleParts] at hq
  | cons p ps ih =>
    by_cases hp : p = []
    · rw [show titleParts fw (p :: ps) = titleParts fw ps by
        simp only [titleParts, if_pos hp]] at hq
      rcases ih hq with ⟨b, p2, hmem, hne, heq⟩
      exact ⟨b, p2, List.mem_cons_of_mem _ hmem, hne, heq⟩
    · rw [show titleParts fw (p :: ps) = titlePart fw p :: titleParts false ps by
        simp only [titleParts, if_neg hp]] at hq
      rcases List.mem_cons.mp hq with h | h
      · exact ⟨fw, p, List.mem_cons_self _ _, hp, h⟩
      · rcases ih h with ⟨b, p2, hmem, hne, heq⟩
        exact ⟨b, p2, List.mem_cons_of_mem _ hmem, hne, heq⟩

/-- Supporting lemma for the title-case development (C7). -/
theorem titleParts_ne_nil {fw : Bool} {ps : List (List Char)}
    (h : ∃ p ∈ ps, p ≠ []) : titleParts fw ps ≠ [] := by
  induction ps generalizing fw with
  | nil => simp at h
  | cons p ps ih =>
    by_cases hp : p = []
    · rw [show titleParts fw (p :: ps) = titleParts fw ps by
        simp only [titleParts, if_pos hp]]
      rcases h with ⟨p2, hmem, hne⟩
      rcases List.mem_cons.mp hmem with he | hm
      · exact absurd (he ▸ hp) hne
      · exact ih ⟨p2, hm, hne⟩
    · rw [show titleParts fw (p :: ps) = titlePart fw p :: titleParts false ps by
        simp only [titleParts, if_neg hp]]
      simp

/-- Supporting lemma for the title-case development (C7). -/
theorem exists_nonempty_part {w : List Char} (h : ∃ c ∈ w, ¬(c = '-')) :
    ∃ p ∈ splitOnCharL '-' w, p ≠ [] := by
  induction w with
  | nil => simp at h
  | cons c w ih =>
    rw [splitOnCharL_cons]
    rcases hs : splitOnCharL '-' w with _ | ⟨g, gs⟩
    · exact absurd hs (splitOnCharL_ne_nil '-' w)
    · show ∃ p ∈ (if c = '-' then ([] : List Char) :: g :: gs else (c :: g) :: gs), p ≠ []
      by_cases hc : c = '-'
      · rw [if_pos hc]
        rcases h with ⟨d, hd, hdne⟩
        rcases List.mem_cons.mp hd with he | hm
        · exact absurd (he ▸ hc) hdne
        · rcases ih ⟨d, hm, hdne⟩ with ⟨p, hp, hpne⟩
          exact ⟨p, List.mem_cons_of_mem _ (hs ▸ hp), hpne⟩
      · rw [if_neg hc]
        exact ⟨c :: g, List.mem_cons_self _ _, by simp⟩

/-- Supporting lemma for the title-case development (C7). -/
theorem joinSep_mem {sep : List Char} {qs : List (List Char)} {c : Char}
    (h : c ∈ joinSep sep qs) : c ∈ sep ∨ ∃ q ∈ qs, c ∈ q := by
  induction qs with
  | nil => simp [joinSep] at h
  | cons q qs ih =>
    cases qs with
    | nil =>
      simp only [joinSep] at h
      exact Or.inr ⟨q, by simp, h⟩
    | cons q2 qs2 =>
      simp only [joinSep] at h
      rcases List.mem_append.mp h with h1 | h1
      · rcases List.mem_append.mp h1 with h2 | h2
        · exact Or.inr ⟨q, by simp, h2⟩
        · exact Or.inl h2
      · rcases ih h1 with h2 | ⟨q3, hq3, hc3⟩
        · exact Or.inl h2
        · exact Or.inr ⟨q3, List.mem_cons_of_mem _ hq3, hc3⟩

/-- Supporting lemma for the title-case development (C7). -/
theorem joinSep_ne_nil {sep : List Char} {qs : List (List Char)} (hne : qs ≠ [])
    (hq : ∀ q ∈ qs, q ≠ []) : joinSep sep qs ≠ [] := by
  cases qs with
  | nil => exact absurd rfl hne
  | cons q qs =>
    cases qs with
    | nil => exact hq q (by simp)
    | cons q2 qs2 =>
      simp only [joinSep]
      intro he
      rcases List.append_eq_nil.mp he with ⟨h1, _⟩
      rcases List.append_eq_nil.mp h1 with ⟨h2, _⟩
      exact hq q (by simp) h2

/-- Supporting lemma for the title-case development (C7). -/
theorem titlePart_mem_chars {b : Bool} {p : List Char} {c : Char}
    (h : c ∈ titlePart b p) : ∃ d ∈ p, c = d.toLower ∨ c = d.toLower.toUpper := by
  have main : c ∈ capFirst (lowerL p) ∨ c ∈ lowerL p →
      ∃ d ∈ p, c = d.toLower ∨ c = d.toLower.toUpper := by
    intro hc
    rcases hc with hc | hc
    · cases p with
      | nil => simp [capFirst, lowerL] at hc
      | cons e es =>
        rcases List.mem_cons.mp hc with he | hm
        · exact ⟨e, by simp, Or.inr he⟩
        · rcases List.mem_map.mp hm with ⟨d, hd, hde⟩
          exact ⟨d, List.mem_cons_of_mem _ hd, Or.inl hde.symm⟩
    · rcases List.mem_map.mp hc with ⟨d, hd, hde⟩
      exact ⟨d, hd, Or.inl hde.symm⟩
  simp only [titlePart] at h
  split at h
  · exact main (Or.inl h)
  · exact main (Or.inr h)

/-- Supporting lemma for the title-case development (C7). -/
theorem splitOnCharL_chars {sep : Char} : ∀ {l g : List Char} {c : Char},
    g ∈ splitOnCharL sep l → c ∈ g → c ∈ l := by
  intro l
  induction l with
  | nil =>
    intro g c hg hc
    simp [splitOnCharL] at hg
    subst hg
    simp at hc
  | cons a l ih =>
    intro g c hg hc
    rw [splitOnCharL_cons] at hg
    rcases hs : splitOnCharL sep l with _ | ⟨h, t⟩
    · exact absurd hs (splitOnCharL_ne_nil sep l)
    · rw [hs] at hg
      have hg2 : g ∈ (if a = sep then ([] : List Char) :: h :: t else (a :: h) :: t) := hg
      by_cases ha : a = sep
      · rw [if_pos ha] at hg2
        rcases List.mem_cons.mp hg2 with he | hm
        · subst he
          simp at hc
        · exact List.mem_cons_of_mem _ (ih (hs ▸ hm) hc)
      · rw [if_neg ha] at hg2
        rcases List.mem_cons.mp hg2 with he | hm
        · subst he
          rcases List.mem_cons.mp hc with he2 | hm2
          · exact he2 ▸ List.mem_cons_self _ _
          · exact List.mem_cons_of_mem _ (ih (hs ▸ List.mem_cons_self h t) hm2)
        · exact List.mem_cons_of_mem _ (ih (hs ▸ List.mem_cons_of_mem h hm) hc)

/-- Supporting lemma for the title-case development (C7). -/
theorem titleWord_hyphen_free_parts {fw : Bool} {w : List Char} :
    ∀ q ∈ titleParts fw (splitOnCharL '-' w), '-' ∉ q := by
  intro q hq
  rcases titleParts_mem hq with ⟨b, p, hp, hpne, heq⟩
  subst heq
  intro hmem
  rcases titlePart_mem_chars hmem with ⟨d, hd, hcase⟩
  have hdne : ¬(d = '-') := fun he => splitOnCharL_sep_free '-' w p hp (he ▸ hd)
  rcases hcase with he | he
  · exact hdne ((toLower_eq_hyphen d).mp he.symm)
  · have h1 : d.toLower.toUpper = '-' := he.symm
    have h2 : d.toLower = '-' := (toUpper_eq_hyphen d.toLower).mp h1
    exact hdne ((toLower_eq_hyphen d).mp h2)

/-- Supporting lemma for the title-case development (C7). -/
theorem titleWord_reproc (fw : Bool) (w : List Char) :
    titleWord fw (lowerL (titleWord fw w)) = titleWord fw w := by
  unfold titleWord
  rcases hqs : titleParts fw (splitOnCharL '-' w) with _ | ⟨q, qs⟩
  · rfl
  · rw [lowerL_joinSep '-' (by decide) (q :: qs)]
    rw [splitOnCharL_joinSep '-' ((q :: qs).map lowerL) (by simp) ?_]
    · rw [← hqs, titleParts_reproc, hqs]
    · intro q2 hq2
      rcases List.mem_map.mp hq2 with ⟨q3, hq3, heq⟩
      subst heq
      intro hmem
      rcases List.mem_map.mp hmem with ⟨d, hd, hde⟩
      have hd2 : ¬(d = '-') := fun he =>
        titleWord_hyphen_free_parts q3 (hqs ▸ hq3) (he ▸ hd)
      exact hd2 ((toLower_eq_hyphen d).mp hde)

/-- Supporting lemma for the title-case development (C7). -/
theorem titleWord_ne_nil {fw : Bool} {w : List Char} (h : ∃ c ∈ w, ¬(c = '-')) :
    titleWord fw w ≠ [] := by
  unfold titleWord
  rcases exists_nonempty_part h with ⟨p, hp, hpne⟩
  refine joinSep_ne_nil (titleParts_ne_nil ⟨p, hp, hpne⟩) ?_
  intro q hq
  rcases titleParts_mem hq with ⟨b, p2, _, hp2ne, heq⟩
  subst heq
  intro he
  apply hp2ne
  have hlen := congrArg List.length he
  rw [titlePart_length] at hlen
  exact List.length_eq_zero.mp hlen

/-- Supporting lemma for the title-case development (C7). -/
theorem titleWord_not_ws {fw : Bool} {w : List Char} (hw : ∀ c ∈ w, pyIsSpace c = false) :
    ∀ c ∈ titleWord fw w, pyIsSpace c = false := by
  intro c hc
  unfold titleWord at hc
  rcases joinSep_mem hc with h | ⟨q, hq, hcq⟩
  · rcases List.mem_singleton.mp h with rfl
    decide
  · rcases titleParts_mem hq with ⟨b, p, hp, _, heq⟩
    subst heq
    rcases titlePart_mem_chars hcq with ⟨d, hd, hcase⟩
    have hdw : pyIsSpace d = false := hw d (splitOnCharL_chars hp hd)
    rcases hcase with he | he
    · rw [he, pyIsSpace_toLower]
      exact hdw
    · rw [he, pyIsSpace_toUpper, pyIsSpace_toLower]
      exact hdw

/-- Supporting lemma for the title-case development (C7). -/
theorem titleTokens_word (fw : Bool) (t : List Char) (ts : List (List Char))
    (hne : t ≠ []) (hnw : t.all pyIsSpace = false) :
    titleTokens fw (t :: ts) = titleWord fw t ++ titleTokens false ts := by
  simp only [titleTokens]
  rw [if_neg hne, if_neg (by rw [hnw]; exact Bool.false_ne_true)]

/-- Supporting lemma for the title-case development (C7). -/
theorem titleTokens_space (fw : Bool) (t : List Char) (ts : List (List Char))
    (hne : t ≠ []) (hws : t.all pyIsSpace = true) :
    titleTokens fw (t :: ts) = t ++ titleTokens fw ts := by
  simp only [titleTokens]
  rw [if_neg hne, if_pos hws]

/-- Supporting lemma for the title-case development (C7). -/
theorem head?_mem {l : List Char} {c : Char} (h : l.head? = some c) : c ∈ l := by
  cases l with
  | nil => simp at h
  | cons a as =>
    rw [List.head?_cons, Option.some_inj] at h
    exact h ▸ List.mem_cons_self a as

/-- Supporting lemma for the title-case development (C7). -/
theorem all_ws_false {l : List Char} (hne : l ≠ []) (h : ∀ c ∈ l, pyIsSpace c = false) :
    l.all pyIsSpace = false := by
  rcases List.exists_cons_of_ne_nil hne with ⟨c, cs, rfl⟩
  simp [List.all_cons, h c (by simp)]

/-- Supporting lemma for the title-case development (C7). -/
theorem lowerL_not_ws {l : List Char} (h : ∀ c ∈ l, pyIsSpace c = false) :
    ∀ c ∈ lowerL l, pyIsSpace c = false := by
  intro c hc
  rcases List.mem_map.mp hc with ⟨d, hd, hde⟩
  rw [← hde, pyIsSpace_toLower]
  exact h d hd

/-- Supporting lemma for the title-case development (C7). -/
theorem lowerL_ne_nil {l : List Char} (h : l ≠ []) : lowerL l ≠ [] := by
  intro he
  apply h
  have := congrArg List.length he
  rw [lowerL_length] at this
  exact List.length_eq_zero.mp this

/-- Supporting lemma for the title-case development (C7). -/
theorem groupRuns_uniform_word {l : List Char} (hne : l ≠ [])
    (h : ∀ c ∈ l, pyIsSpace c = false) : groupRuns l = [l] := by
  have := groupRuns_append false l [] hne h (Or.inl rfl)
  simpa using this

/-- Supporting lemma for the title-case development (C7). -/
theorem titleTokens_single (fw : Bool) (w : List Char) (hne : w ≠ [])
    (hw : ∀ c ∈ w, pyIsSpace c = false) : titleTokens fw [w] = titleWord fw w := by
  rw [titleTokens_word fw w [] hne (all_ws_false hne hw)]
  simp [titleTokens]

/-- Supporting lemma for the title-case development (C7). -/
theorem titleTokens_struct {ps : List (List Char)} (halt : AltChain ps) :
    (∀ w ∈ ps, (∀ c ∈ w, pyIsSpace c = false) → ∃ c ∈ w, ¬(c = '-')) →
    ∀ fw : Bool,
    titleTokens fw (groupRuns (lowerL (titleTokens fw ps))) = titleTokens fw ps ∧
    titleTokens fw ps ≠ [] ∧
    (∀ c, (titleTokens fw ps).head? = some c → pyIsSpace c = false) ∧
    (∀ c, (titleTokens fw ps).getLast? = some c → pyIsSpace c = false) := by
  induction halt with
  | single w hne hw =>
    intro hcond fw
    have hnh : ∃ c ∈ w, ¬(c = '-') := hcond w (by simp) hw
    have hT3 : titleTokens fw [w] = titleWord fw w := titleTokens_single fw w hne hw
    have hwne : titleWord fw w ≠ [] := titleWord_ne_nil hnh
    have hwnws : ∀ c ∈ titleWord fw w, pyIsSpace c = false := titleWord_not_ws hw
    rw [hT3]
    refine ⟨?_, hwne, fun c hc => hwnws c (head?_mem hc),
      fun c hc => hwnws c (getLast?_mem hc)⟩
    rw [groupRuns_uniform_word (lowerL_ne_nil hwne) (lowerL_not_ws hwnws)]
    rw [titleTokens_single fw _ (lowerL_ne_nil hwne) (lowerL_not_ws hwnws)]
    exact titleWord_reproc fw w
  | cons w sep rest hne hw hsne hs hrest ih =>
    intro hcond fw
    have hcondr : ∀ x ∈ rest, (∀ c ∈ x, pyIsSpace c = false) → ∃ c ∈ x, ¬(c = '-') :=
      fun x hx hxw => hcond x (List.mem_cons_of_mem _ (List.mem_cons_of_mem _ hx)) hxw
    obtain ⟨hidem2, hne2, hh2, hl2⟩ := ih hcondr false
    have hnh : ∃ c ∈ w, ¬(c = '-') := hcond w (by simp) hw
    have hwne : titleWord fw w ≠ [] := titleWord_ne_nil hnh
    have hwnws : ∀ c ∈ titleWord fw w, pyIsSpace c = false := titleWord_not_ws hw
    have hT2 : titleTokens fw (w :: sep :: rest)
        = titleWord fw w ++ (sep ++ titleTokens false rest) := by
      rw [titleTokens_word fw w _ hne (all_ws_false hne hw),
        titleTokens_space false sep rest hsne (by
          rcases List.exists_cons_of_ne_nil hsne with ⟨d, ds, rfl⟩
          simp only [List.all_cons]
          rw [hs d (by simp)]
          simp
          intro x hx
          exact hs x (List.mem_cons_of_mem _ hx))]
    rw [hT2]
    have hout_ne : titleWord fw w ++ (sep ++ titleTokens false rest) ≠ [] := by
      intro he
      exact hwne (List.append_eq_nil.mp he).1
    refine ⟨?_, hout_ne, ?_, ?_⟩
    · -- re-splitting reproduces the processed pieces
      have hlw : lowerL (titleWord fw w ++ (sep ++ titleTokens false rest))
          = lowerL (titleWord fw w) ++ (sep ++ lowerL (titleTokens false rest)) := by
        rw [lowerL_append, lowerL_append, lowerL_of_spaces hs]
      rw [hlw]
      have hg1 : groupRuns (lowerL (titleWord fw w) ++ (sep ++ lowerL (titleTokens false rest)))
          = lowerL (titleWord fw w) :: groupRuns (sep ++ lowerL (titleTokens false rest)) := by
        refine groupRuns_append false _ _ (lowerL_ne_nil hwne) (lowerL_not_ws hwnws) ?_
        rcases List.exists_cons_of_ne_nil hsne with ⟨d, ds, hds⟩
        exact Or.inr ⟨d, ds ++ lowerL (titleTokens false rest), by rw [hds]; simp,
          by rw [hs d (by rw [hds]; simp)]; rfl⟩
      rw [hg1]
      have hg2 : groupRuns (sep ++ lowerL (titleTokens false rest))
          = sep :: groupRuns (lowerL (titleTokens false rest)) := by
        refine groupRuns_append true _ _ hsne hs ?_
        rcases List.exists_cons_of_ne_nil hne2 with ⟨e, es, hes⟩
        refine Or.inr ⟨e.toLower, lowerL es, by rw [hes]; rfl, ?_⟩
        rw [pyIsSpace_toLower, hh2 e (by rw [hes]; rfl)]
        rfl
      rw [hg2]
      have hlwne : lowerL (titleWord fw w) ≠ [] := lowerL_ne_nil hwne
      rw [titleTokens_word fw _ _ hlwne (all_ws_false hlwne (lowerL_not_ws hwnws))]
      rw [titleTokens_space false sep _ hsne (by
        rcases List.exists_cons_of_ne_nil hsne with ⟨d, ds, rfl⟩
        simp only [List.all_cons]
        rw [hs d (by simp)]
        simp
        intro x hx
        exact hs x (List.mem_cons_of_mem _ hx))]
      rw [titleWord_reproc, hidem2]
    · intro c hc
      rw [List.head?_append_of_ne_nil _ hwne] at hc
      exact hwnws c (head?_mem hc)
    · intro c hc
      rw [getLast?_append_right (by
          intro he
          rcases List.append_eq_nil.mp he with ⟨h1, _⟩
          exact hsne h1),
        getLast?_append_right hne2] at hc
      exact hl2 c hc

/-- Supporting lemma for the title-case development (C7). -/
theorem pyStrip_eq_self {l : List Char}
    (hh : ∀ c, l.head? = some c → pyIsSpace c = false)
    (hl : ∀ c, l.getLast? = some c → pyIsSpace c = false) : pyStrip l = l := by
  unfold pyStrip dropWhileRight
  have h1 : l.dropWhile pyIsSpace = l := by
    cases l with
    | nil => rfl
    | cons c cs =>
      rw [List.dropWhile_cons, if_neg (by rw [hh c rfl]; exact Bool.false_ne_true)]
  rw [h1]
  have h2 : l.reverse.dropWhile pyIsSpace = l.reverse := by
    rcases hr : l.reverse with _ | ⟨c, cs⟩
    · rfl
    · rw [List.dropWhile_cons, if_neg ?_]
      have hlast : l.getLast? = some c := by
        rw [← List.head?_reverse, hr, List.head?_cons]
      rw [hl c hlast]
      exact Bool.false_ne_true
  rw [h2, List.reverse_reverse]

/-- Supporting lemma for the title-case development (C7). -/
theorem pyStrip_head_not_ws {l : List Char} :
    ∀ c, (pyStrip l).head? = some c → pyIsSpace c = false := by
  intro c hc
  unfold pyStrip dropWhileRight at hc
  have hdecomp : l.dropWhile pyIsSpace
      = ((l.dropWhile pyIsSpace).reverse.dropWhile pyIsSpace).reverse
        ++ ((l.dropWhile pyIsSpace).reverse.takeWhile pyIsSpace).reverse := by
    conv_lhs => rw [← List.reverse_reverse (l.dropWhile pyIsSpace)]
    conv_lhs =>
      rw [← List.takeWhile_append_dropWhile pyIsSpace (l.dropWhile pyIsSpace).reverse]
    rw [List.reverse_append]
  have hne : ((l.dropWhile pyIsSpace).reverse.dropWhile pyIsSpace).reverse ≠ [] := by
    intro he
    rw [he] at hc
    simp at hc
  have hheads : (l.dropWhile pyIsSpace).head? = some c := by
    rw [hdecomp, List.head?_append_of_ne_nil _ hne, hc]
  rcases hm2 : l.dropWhile pyIsSpace with _ | ⟨d, ds⟩
  · rw [hm2] at hheads
    simp at hheads
  · rw [hm2, List.head?_cons, Option.some_inj] at hheads
    subst hheads
    exact dropWhile_head_not hm2

/-- Supporting lemma for the title-case development (C7). -/
theorem pyStrip_last_not_ws {l : List Char} :
    ∀ c, (pyStrip l).getLast? = some c → pyIsSpace c = false := by
  intro c hc
  unfold pyStrip dropWhileRight at hc
  rw [List.getLast?_reverse] at hc
  rcases hX : (l.dropWhile pyIsSpace).reverse.dropWhile pyIsSpace with _ | ⟨d, ds⟩
  · rw [hX] at hc
    simp at hc
  · rw [hX, List.head?_cons, Option.some_inj] at hc
    subst hc
    exact dropWhile_head_not hX

/-- Supporting lemma for the title-case development (C7). -/
theorem titleWord_head (a : Char) (g : List Char) (ha : ¬(a = '-')) :
    (titleWord true (a :: g)).head? = some a.toLower.toUpper := by
  unfold titleWord
  rw [splitOnCharL_cons]
  rcases hs : splitOnCharL '-' g with _ | ⟨h, t⟩
  · exact absurd hs (splitOnCharL_ne_nil '-' g)
  · have hred : (match h :: t with
        | [] => [[a]]
        | h :: t => if a = '-' then [] :: h :: t else (a :: h) :: t) = (a :: h) :: t := by
      show (if a = '-' then ([] : List Char) :: h :: t else (a :: h) :: t) = (a :: h) :: t
      rw [if_neg ha]
    rw [hred]
    rw [show titleParts true ((a :: h) :: t) = titlePart true (a :: h) :: titleParts false t by
      simp only [titleParts, if_neg (by simp : ¬((a :: h : List Char) = []))]]
    have hpart : titlePart true (a :: h) = a.toLower.toUpper :: lowerL h := by
      simp only [titlePart]
      rw [if_pos (by simp)]
      rfl
    rw [hpart]
    rcases titleParts false t with _ | ⟨q, qs⟩
    · rfl
    · rfl

/-- C7 counterexample: _smart_title_case is not idempotent. On the input consisting of a token of hyphens followed by the words of and mice, the function clears the leading hyphen token as the first word, so a second application capitalizes the word of, changing the output. -/
theorem c7_title_case_counterexample :
    smart_title_case (smart_title_case "--- of mice") ≠ smart_title_case "--- of mice" := by
  decide

/-- C7 amended: when no whitespace-delimited token of the lowered, stripped input consists entirely of hyphens, _smart_title_case is idempotent, and whenever the stripped input starts with an ASCII letter the output starts with the upper-cased form of that letter. -/
theorem c7_title_case_amended (s : String)
    (hH : ∀ g ∈ groupRuns (lowerL (pyStrip s.data)),
      (∀ c ∈ g, pyIsSpace c = false) → ∃ c ∈ g, ¬(c = '-')) :
    smart_title_case (smart_title_case s) = smart_title_case s ∧
    (∀ c cs, pyStrip s.data = c :: cs → c.isAlpha = true →
      (smart_title_case s).data.head? = some c.toLower.toUpper ∧
      (c.toLower.toUpper).isUpper = true) := by
  constructor
  · by_cases hempty : (pyStrip s.data).isEmpty = true
    · have h0 : pyStrip s.data = [] := by
        rwa [List.isEmpty_iff] at hempty
      have h1 : smart_title_case s = String.mk [] := by
        simp only [smart_title_case]
        rw [h0]
        rfl
      rw [h1]
      rfl
    · have hstrip_ne : pyStrip s.data ≠ [] := by
        intro he
        rw [he] at hempty
        exact hempty rfl
      have hlne : lowerL (pyStrip s.data) ≠ [] := lowerL_ne_nil hstrip_ne
      have hlh : ∀ c, (lowerL (pyStrip s.data)).head? = some c → pyIsSpace c = false := by
        intro c hc
        simp only [lowerL] at hc
        rw [List.head?_map] at hc
        rcases hhead : (pyStrip s.data).head? with _ | d
        · rw [hhead] at hc
          simp at hc
        · rw [hhead] at hc
          simp only [Option.map_some'] at hc
          rw [Option.some_inj] at hc
          rw [← hc, pyIsSpace_toLower]
          exact pyStrip_head_not_ws d hhead
      have hll : ∀ c, (lowerL (pyStrip s.data)).getLast? = some c → pyIsSpace c = false := by
        intro c hc
        simp only [lowerL] at hc
        rw [List.getLast?_map] at hc
        rcases hlast : (pyStrip s.data).getLast? with _ | d
        · rw [hlast] at hc
          simp at hc
        · rw [hlast] at hc
          simp only [Option.map_some'] at hc
          rw [Option.some_inj] at hc
          rw [← hc, pyIsSpace_toLower]
          exact pyStrip_last_not_ws d hlast
      have halt := altChain_groupRuns (lowerL (pyStrip s.data)).length _ le_rfl hlne hlh hll
      obtain ⟨hidem, hne, hh, hl⟩ := titleTokens_struct halt hH true
      have hout : smart_title_case s
          = String.mk (titleTokens true (groupRuns (lowerL (pyStrip s.data)))) := by
        simp only [smart_title_case]
        rw [if_neg hempty]
      rw [hout]
      have hdata : (String.mk (titleTokens true (groupRuns (lowerL (pyStrip s.data))))).data
          = titleTokens true (groupRuns (lowerL (pyStrip s.data))) := rfl
      simp only [smart_title_case, hdata]
      rw [pyStrip_eq_self hh hl]
      rw [if_neg (by intro h2; exact hne (List.isEmpty_iff.mp h2))]
      rw [hidem]
  · intro c cs hstrip halpha
    have hempty : ¬((pyStrip s.data).isEmpty = true) := by
      rw [hstrip]
      simp
    have hout : smart_title_case s
        = String.mk (titleTokens true (groupRuns (lowerL (pyStrip s.data)))) := by
      simp only [smart_title_case]
      rw [if_neg hempty]
    refine ⟨?_, isUpper_toUpper_toLower c halpha⟩
    rw [hout]
    show (titleTokens true (groupRuns (lowerL (pyStrip s.data)))).head? = _
    rw [hstrip]
    show (titleTokens true (groupRuns (c.toLower :: lowerL cs))).head? = _
    rcases groupRuns_cons_shape c.toLower (lowerL cs) with ⟨g, gs, hg⟩
    rw [hg]
    have hcns : pyIsSpace c.toLower = false := by
      rw [pyIsSpace_toLower]
      exact isAlpha_not_space c halpha
    rw [titleTokens_word true _ gs (by simp) (by simp [List.all_cons, hcns])]
    have hch : ¬(c.toLower = '-') := fun he =>
      isAlpha_ne_hyphen c halpha ((toLower_eq_hyphen c).mp he)
    have hwne : titleWord true (c.toLower :: g) ≠ [] :=
      titleWord_ne_nil ⟨c.toLower, by simp, hch⟩
    rw [List.head?_append_of_ne_nil _ hwne]
    rw [titleWord_head c.toLower g hch, toLower_toLower]

/-- Witness for the amended C7 claim at the concrete input of mice and men. -/
theorem c7_title_case_amended_witness :
    (smart_title_case (smart_title_case "of mice and men")
      = smart_title_case "of mice and men") ∧
    (∀ c cs, pyStrip ("of mice and men" : String).data = c :: cs → c.isAlpha = true →
      (smart_title_case "of mice and men").data.head? = some c.toLower.toUpper ∧
      (c.toLower.toUpper).isUpper = true) :=
  c7_title_case_amended "of mice and men" (by decide)

end EconSearch
